import Mathlib

/-!
# vector_template.cpp: a generic vector and its specialisation to bool

A shallow embedding of `3-specialization-classes/vector_template.cpp`.

* `int` values are integers; the one place where an `int` computation can leave the
  32-bit range (the buffer size `(my_size+7) / 8`) is wrapped explicitly by `wrap_int`.
* `unsigned char` / `uint8_t` values are `Fin 256`; every store truncates modulo 256.
* A heap buffer is a list of cells. A freshly allocated buffer is not initialised by the
  program, so every constructor takes the content found in the allocation as an argument.
* A C++ reference into a buffer is the position of the cell it refers to, and operations
  through a reference take the buffer and return the new buffer.
* `assert`, a failed `new[]` and an access outside a buffer are results of type `Fault`.
  Assertions are compiled in (`NDEBUG` is not defined), and `new[]` fails only on a
  negative array size, never for lack of memory.
* A loop is a recursive function on a fuel counter; the caller passes enough fuel.
* A `std::ostream` is the text written to it so far; the printed form of an element
  (what `os << x` writes for the element type) is an argument of the rendering.
-/

namespace VectorTemplate

/-- The ways in which an operation of the program fails to return a value. -/
inductive Fault where
  /-- the condition of an `assert` is false -/
  | assert_failed
  /-- the array size of a `new T[n]` expression is negative -/
  | bad_array_new_length
  /-- a cell outside the allocated buffer is touched, or a shift count is out of range -/
  | undefined_behaviour
  /-- the loop model was given too little fuel -/
  | out_of_fuel
  deriving DecidableEq, Repr

/-- Largest value of the 32-bit `int`. -/
def INT_MAX : Int := 2147483647

/-- Two's-complement wrap of an integer into the range of the 32-bit `int`. -/
def wrap_int (x : Int) : Int := (x + 2147483648) % 4294967296 - 2147483648

/-- The type `uint8_t` (the same as `unsigned char`). -/
abbrev uint8_t : Type := Fin 256

/-- Conversion of an `int` bit pattern to `unsigned char`: the low eight bits. -/
def to_uint8 (x : Nat) : uint8_t := ⟨x % 256, Nat.mod_lt x (by decide)⟩

/-- Bit pattern of `~m` for an `unsigned char` `m` promoted to the 32-bit `int`. -/
def int_complement (m : Nat) : Nat := 4294967295 - m

/-! ## PART A: the generic `vector<T>` -/

/-- Class `vector<T>`: the element count and the buffer `data` points to. -/
structure vector (T : Type) where
  my_size : Int
  data : List T
  deriving DecidableEq, Repr

/-- Method `check_index`: `assert(i >= 0 && i < my_size)`. -/
def vector.check_index {T : Type} (v : vector T) (i : Int) : Except Fault Unit :=
  if i ≥ 0 ∧ i < v.my_size then .ok () else .error .assert_failed

/-- Constructor `explicit vector(int size)`: `data(new T[my_size])`; `heap k` is the value
cell `k` of the fresh array holds. -/
def vector.new {T : Type} (size : Int) (heap : Nat → T) : Except Fault (vector T) :=
  let my_size := size
  if my_size < 0 then .error .bad_array_new_length
  else .ok { my_size := my_size, data := (List.range my_size.toNat).map heap }

/-- Default constructor `vector(): my_size(0), data(nullptr)`. -/
def vector.default {T : Type} : vector T := { my_size := 0, data := [] }

/-- The algorithm `std::copy(first, last, d_first)`: `while (first != last)
*d_first++ = *first++;`, with `first`, `last` positions in `src` and `d_first` a position
in `dst`. Returns the destination buffer. -/
def std_copy {T : Type} (src : List T) :
    Nat → Nat → Nat → List T → Nat → Except Fault (List T)
  | 0, _, _, _, _ => .error .out_of_fuel
  | fuel + 1, first, last, dst, d_first =>
    if first ≠ last then
      match src[first]? with
      | none => .error .undefined_behaviour
      | some x =>
        if d_first < dst.length then
          std_copy src fuel (first + 1) last (dst.set d_first x) (d_first + 1)
        else .error .undefined_behaviour
    else .ok dst

/-- The call `std::copy(&that.data[0], &that.data[that.my_size], &data[0])`. -/
def copy_from {T : Type} (that : vector T) (data : List T) : Except Fault (List T) :=
  if that.my_size < 0 then .error .undefined_behaviour
  else std_copy that.data (that.my_size.toNat + 1) 0 that.my_size.toNat data 0

/-- Copy constructor `vector(const vector& that)`; `heap k` is the value cell `k` of the
fresh array holds before the copy. -/
def vector.copy {T : Type} (that : vector T) (heap : Nat → T) : Except Fault (vector T) :=
  match vector.new that.my_size heap with
  | .error e => .error e
  | .ok fresh =>
    match copy_from that fresh.data with
    | .error e => .error e
    | .ok d => .ok { my_size := fresh.my_size, data := d }

/-- Assignment `vector& operator=(const vector& that)`; returns the new state of `*this`. -/
def vector.operator_assign {T : Type} (self that : vector T) : Except Fault (vector T) :=
  if self.my_size = that.my_size then
    match copy_from that self.data with
    | .error e => .error e
    | .ok d => .ok { my_size := self.my_size, data := d }
  else .error .assert_failed

/-- Method `size()`. -/
def vector.size {T : Type} (v : vector T) : Int := v.my_size

/-- The expression `data[i]` on a buffer. -/
def buffer_at {T : Type} (data : List T) (i : Int) : Except Fault T :=
  if i < 0 then .error .undefined_behaviour
  else
    match data[i.toNat]? with
    | none => .error .undefined_behaviour
    | some x => .ok x

/-- Read `const T& operator[](int i) const`: the value of the cell referred to. -/
def vector.operator_index_const {T : Type} (v : vector T) (i : Int) : Except Fault T :=
  match v.check_index i with
  | .error e => .error e
  | .ok () => buffer_at v.data i

/-- Write access `T& operator[](int i)`: the position of the cell referred to. -/
def vector.operator_index {T : Type} (v : vector T) (i : Int) : Except Fault Nat :=
  match v.check_index i with
  | .error e => .error e
  | .ok () =>
    if i < 0 ∨ v.data.length ≤ i.toNat then .error .undefined_behaviour
    else .ok i.toNat

/-- The statement `v[i] = x;` on a `vector<T>`: take the reference, assign through it. -/
def vector.store {T : Type} (v : vector T) (i : Int) (x : T) : Except Fault (vector T) :=
  match v.operator_index i with
  | .error e => .error e
  | .ok r => .ok { v with data := v.data.set r x }

/-- The loop `for (int i= 0; i < my_size; ++i) sum[i] = data[i] + that[i];` of
`operator+`, from the current value of `i`. -/
def vector.add_loop {T : Type} [Add T] (self that : vector T) :
    Nat → Int → vector T → Except Fault (vector T)
  | 0, _, _ => .error .out_of_fuel
  | fuel + 1, i, sum =>
    if i < self.my_size then
      match buffer_at self.data i with
      | .error e => .error e
      | .ok a =>
        match that.operator_index_const i with
        | .error e => .error e
        | .ok b =>
          match sum.store i (a + b) with
          | .error e => .error e
          | .ok next => vector.add_loop self that fuel (i + 1) next
    else .ok sum

/-- Addition `vector operator+(const vector& that) const`; `heap` is the content of the
fresh array of `sum`. -/
def vector.operator_add {T : Type} [Add T] (self that : vector T) (heap : Nat → T) :
    Except Fault (vector T) :=
  if self.my_size = that.my_size then
    match vector.new self.my_size heap with
    | .error e => .error e
    | .ok sum => vector.add_loop self that (self.my_size.toNat + 1) 0 sum
  else .error .assert_failed

/-- A `vector<T>` as its constructors leave it: the buffer has `my_size` cells. -/
def vector.valid {T : Type} (v : vector T) : Prop :=
  0 ≤ v.my_size ∧ (v.data.length : Int) = v.my_size

instance {T : Type} (v : vector T) : Decidable v.valid := by
  unfold vector.valid; infer_instance

/-! ## Stream rendering of `vector<T>` -/

/-- The stream `std::ostream`: the text written to it so far. -/
abbrev ostream : Type := String

/-- The loop `for (int i= 0; i < v.size(); ++i) os << v[i] << ',';` of `operator<<`, from
the current value of `i`; `print x` is the printed form of an element, the text that
`os << x` writes for the element type. -/
def shift_loop {T : Type} (print : T → String) (v : vector T) :
    Nat → Int → ostream → Except Fault ostream
  | 0, _, _ => .error .out_of_fuel
  | fuel + 1, i, os =>
    if i < v.size then
      match v.operator_index_const i with
      | .error e => .error e
      | .ok x => shift_loop print v fuel (i + 1) (os ++ print x ++ ",")
    else .ok os

/-- The function `operator<<(std::ostream& os, const vector<T>& v)`: returns the text of
the stream after it. -/
def operator_shift {T : Type} (print : T → String) (os : ostream) (v : vector T) :
    Except Fault ostream :=
  match shift_loop print v (v.size.toNat + 1) 0 (os ++ "[") with
  | .error e => .error e
  | .ok os1 => .ok (os1 ++ "]")

/-! ## PART A with the buffers in a heap

The definitions above treat a container as the value of its buffer. To speak of two
containers at once (is the buffer of one touched by an operation on the other?) the
buffers are put in a heap and the member `data` is a pointer. The operations are the ones
above, applied to the arrays the pointers lead to. -/

/-- The heap: the arrays obtained from `new T[...]`. The array of the `k`-th allocation
is at position `k`, and `k` is the pointer `new` returned for it. -/
abbrev Heap (T : Type) : Type := List (List T)

/-- An object of class `vector<T>`: the members `my_size` and `data`, a pointer. -/
structure vector_object where
  my_size : Int
  data : Nat
  deriving DecidableEq, Repr

/-- The container an object stands for in a heap: its size with the array at `data`. -/
def vector_object.deref {T : Type} (o : vector_object) (h : Heap T) :
    Except Fault (vector T) :=
  match h[o.data]? with
  | none => .error .undefined_behaviour
  | some block => .ok { my_size := o.my_size, data := block }

/-- Copy constructor in the heap: `new T[my_size]` is a new array of the heap, filled by
`std::copy`. Returns the new object and the new heap. -/
def heap_copy {T : Type} (h : Heap T) (that : vector_object) (fresh : Nat → T) :
    Except Fault (vector_object × Heap T) :=
  match that.deref h with
  | .error e => .error e
  | .ok v =>
    match v.copy fresh with
    | .error e => .error e
    | .ok c => .ok ({ my_size := c.my_size, data := h.length }, h ++ [c.data])

/-- The statement `o[i] = x;` in the heap: the array of `o` is written. -/
def heap_store {T : Type} (h : Heap T) (o : vector_object) (i : Int) (x : T) :
    Except Fault (Heap T) :=
  match o.deref h with
  | .error e => .error e
  | .ok v =>
    match v.store i x with
    | .error e => .error e
    | .ok w => .ok (h.set o.data w.data)

/-- The expression `o[i]` read in the heap, `o` const. -/
def heap_read {T : Type} (h : Heap T) (o : vector_object) (i : Int) : Except Fault T :=
  match o.deref h with
  | .error e => .error e
  | .ok v => v.operator_index_const i

/-- The statement `self = that;` in the heap: `std::copy` writes the array of `self`; the
members of `self` are not assigned. -/
def heap_assign {T : Type} (h : Heap T) (self that : vector_object) :
    Except Fault (Heap T) :=
  match self.deref h with
  | .error e => .error e
  | .ok v =>
    match that.deref h with
    | .error e => .error e
    | .ok w =>
      match v.operator_assign w with
      | .error e => .error e
      | .ok r => .ok (h.set self.data r.data)

/-- The expression `self + that` in the heap: the local `sum` has a new array, the loop
writes it, and `sum` is the object returned. -/
def heap_add {T : Type} [Add T] (h : Heap T) (self that : vector_object) (fresh : Nat → T) :
    Except Fault (vector_object × Heap T) :=
  match self.deref h with
  | .error e => .error e
  | .ok v =>
    match that.deref h with
    | .error e => .error e
    | .ok w =>
      match v.operator_add w fresh with
      | .error e => .error e
      | .ok s => .ok ({ my_size := s.my_size, data := h.length }, h ++ [s.data])

/-! ## PART B: the proxy `bool_reference` -/

/-- Class `bool_reference`: `byte` is the position, in the buffer of the container, of the
byte the C++ member `unsigned char& byte` refers to. -/
structure bool_reference where
  byte : Nat
  mask : uint8_t
  deriving DecidableEq, Repr

/-- Constructor `bool_reference(containing_byte, bit_index)`: `mask(1 << bit_index)`,
the `int` value `1 << bit_index` converted to `unsigned char`. -/
def bool_reference.new (containing_byte : Nat) (bit_index : Int) :
    Except Fault bool_reference :=
  if 0 ≤ bit_index ∧ bit_index < 32 then
    .ok { byte := containing_byte, mask := to_uint8 (1 <<< bit_index.toNat) }
  else
    .error .undefined_behaviour

/-- Conversion `operator bool() const`: `return byte & mask;`. -/
def bool_reference.operator_bool (r : bool_reference) (mem : List uint8_t) :
    Except Fault Bool :=
  match mem[r.byte]? with
  | none => .error .undefined_behaviour
  | some byte => .ok ((byte.val &&& r.mask.val) != 0)

/-- Assignment `operator=(bool b)`: `byte |= mask` when `b == true`, else `byte &= ~mask`.
The operands are promoted to `int` and the result is stored back as `unsigned char`. -/
def bool_reference.operator_assign (r : bool_reference) (b : Bool) (mem : List uint8_t) :
    Except Fault (List uint8_t) :=
  match mem[r.byte]? with
  | none => .error .undefined_behaviour
  | some byte =>
    if b == true then
      .ok (mem.set r.byte (to_uint8 (byte.val ||| r.mask.val)))
    else
      .ok (mem.set r.byte (to_uint8 (byte.val &&& int_complement r.mask.val)))

/-! ## PART B: the specialisation `vector<bool>` -/

/-- Class `vector<bool>`: the element count and the byte buffer `data` points to. -/
structure vector_bool where
  my_size : Int
  data : List uint8_t
  deriving DecidableEq, Repr

/-- Method `check_index`: `assert(i >= 0 && i < my_size)`. -/
def vector_bool.check_index (v : vector_bool) (i : Int) : Except Fault Unit :=
  if i ≥ 0 ∧ i < v.my_size then .ok () else .error .assert_failed

/-- Number of bytes requested by `new uint8_t[(my_size+7) / 8]`, in `int` arithmetic. -/
def vector_bool.alloc_len (my_size : Int) : Int := Int.tdiv (wrap_int (my_size + 7)) 8

/-- Constructor `explicit vector(int size)`; `heap k` is the byte found in cell `k` of the
fresh allocation. -/
def vector_bool.new (size : Int) (heap : Nat → uint8_t) : Except Fault vector_bool :=
  let my_size := size
  if vector_bool.alloc_len my_size < 0 then
    .error .bad_array_new_length
  else
    .ok { my_size := my_size,
          data := (List.range (vector_bool.alloc_len my_size).toNat).map heap }

/-- Default constructor `vector(): my_size(0), data(nullptr)`. -/
def vector_bool.default : vector_bool := { my_size := 0, data := [] }

/-- Method `size()`. -/
def vector_bool.size (v : vector_bool) : Int := v.my_size

/-- Read `bool operator[](int i) const`: `return (data[i/8] >> i%8) & 1;`. -/
def vector_bool.operator_index_const (v : vector_bool) (i : Int) : Except Fault Bool :=
  match v.check_index i with
  | .error e => .error e
  | .ok () =>
    if Int.tdiv i 8 < 0 ∨ Int.tmod i 8 < 0 then .error .undefined_behaviour
    else
      match v.data[(Int.tdiv i 8).toNat]? with
      | none => .error .undefined_behaviour
      | some byte => .ok (((byte.val >>> (Int.tmod i 8).toNat) &&& 1) != 0)

/-- Write access `bool_reference operator[](int i)`:
`return bool_reference{data[i/8], i%8};`. -/
def vector_bool.operator_index (v : vector_bool) (i : Int) : Except Fault bool_reference :=
  match v.check_index i with
  | .error e => .error e
  | .ok () =>
    if Int.tdiv i 8 < 0 ∨ v.data.length ≤ (Int.tdiv i 8).toNat then
      .error .undefined_behaviour
    else
      bool_reference.new (Int.tdiv i 8).toNat (Int.tmod i 8)

/-- The statement `b[i] = x;` on a `vector<bool>`: take the proxy, assign through it. -/
def vector_bool.store (v : vector_bool) (i : Int) (x : Bool) : Except Fault vector_bool :=
  match v.operator_index i with
  | .error e => .error e
  | .ok r =>
    match r.operator_assign x v.data with
    | .error e => .error e
    | .ok mem => .ok { v with data := mem }

/-- The expression `b[i]` on a non-const `vector<bool>` used as a `bool`: take the proxy,
convert it. -/
def vector_bool.load (v : vector_bool) (i : Int) : Except Fault Bool :=
  match v.operator_index i with
  | .error e => .error e
  | .ok r => r.operator_bool v.data

/-- A `vector<bool>` as the constructor leaves it and the writes keep it: the size is
non-negative, `my_size + 7` is an `int`, and the buffer has `(my_size+7) / 8` bytes. -/
def vector_bool.valid (v : vector_bool) : Prop :=
  0 ≤ v.my_size ∧ v.my_size + 7 ≤ INT_MAX ∧ (v.data.length : Int) = (v.my_size + 7) / 8

instance (v : vector_bool) : Decidable v.valid := by
  unfold vector_bool.valid; infer_instance


/-! ## The driver `main`, the part on `vector<bool>` -/

/-- The loop `for (int i= 0; i < 13; i++) b[i] = i % 3;`, from the current value of `i`;
the `int` `i % 3` converts to `bool` as `i % 3 != 0`. -/
def main_fill : Nat → Int → vector_bool → Except Fault vector_bool
  | 0, _, _ => .error .out_of_fuel
  | fuel + 1, i, b =>
    if i < 13 then
      match b.store i (Int.tmod i 3 != 0) with
      | .error e => .error e
      | .ok next => main_fill fuel (i + 1) next
    else .ok b

/-- The loop `for (int i= 0; i < 13; i++) std::cout << b[i];`, from the current value of
`i`: the values sent to the stream are appended to `out`. -/
def main_print : Nat → Int → vector_bool → List Bool → Except Fault (List Bool)
  | 0, _, _, _ => .error .out_of_fuel
  | fuel + 1, i, b, out =>
    if i < 13 then
      match b.load i with
      | .error e => .error e
      | .ok x => main_print fuel (i + 1) b (out ++ [x])
    else .ok out

/-- Lines `vector<bool> b(13);` and the first loop of `main`: the state of `b` after it. -/
def main_b (heap : Nat → uint8_t) : Except Fault vector_bool :=
  match vector_bool.new 13 heap with
  | .error e => .error e
  | .ok b => main_fill 14 0 b

/-! ## Bits of a byte -/

theorem read_bit_eq_testBit (x k : Nat) : (((x >>> k) &&& 1) != 0) = x.testBit k := by
  simp [Nat.testBit, Nat.and_comm]

theorem testBit_to_uint8 (x j : Nat) :
    (to_uint8 x).val.testBit j = (decide (j < 8) && x.testBit j) := by
  have : (to_uint8 x).val = x % 2 ^ 8 := rfl
  rw [this, Nat.testBit_mod_two_pow]

theorem mask_val (k : Nat) (hk : k < 8) : (to_uint8 (1 <<< k)).val = 2 ^ k := by
  have h : (to_uint8 (1 <<< k)).val = (1 <<< k) % 256 := rfl
  rw [h, Nat.one_shiftLeft]
  apply Nat.mod_eq_of_lt
  calc 2 ^ k < 2 ^ 8 := Nat.pow_lt_pow_right (by decide) hk
    _ = 256 := by norm_num

theorem testBit_int_complement (k j : Nat) (hk : k < 8) :
    (int_complement (2 ^ k)).testBit j = (decide (j < 32) && !decide (k = j)) := by
  have h : int_complement (2 ^ k) = 2 ^ 32 - (2 ^ k + 1) := by
    unfold int_complement; omega
  have hlt : 2 ^ k < 2 ^ 32 := Nat.pow_lt_pow_right (by decide) (by omega)
  rw [h, Nat.testBit_two_pow_sub_succ hlt, Nat.testBit_two_pow]

theorem tdiv_tmod_nonneg (i : Int) (h0 : 0 ≤ i) :
    Int.tdiv i 8 = ((i.toNat / 8 : Nat) : Int) ∧ Int.tmod i 8 = ((i.toNat % 8 : Nat) : Int) := by
  rw [Int.tdiv_eq_ediv h0 (by decide), Int.tmod_eq_emod h0 (by decide)]
  constructor <;> omega

theorem byte_in_buffer (v : vector_bool) (hv : v.valid) (i : Int) (h0 : 0 ≤ i)
    (hi : i < v.my_size) : i.toNat / 8 < v.data.length := by
  obtain ⟨_, _, hlen⟩ := hv
  omega

theorem operator_index_valid (v : vector_bool) (hv : v.valid) (i : Int) (h0 : 0 ≤ i)
    (hi : i < v.my_size) :
    v.operator_index i = .ok { byte := i.toNat / 8, mask := to_uint8 (1 <<< (i.toNat % 8)) } := by
  have hb := byte_in_buffer v hv i h0 hi
  obtain ⟨hd, hm⟩ := tdiv_tmod_nonneg i h0
  have hk : i.toNat % 8 < 8 := Nat.mod_lt _ (by decide)
  simp only [vector_bool.operator_index, vector_bool.check_index, hd, hm, bool_reference.new,
    Int.toNat_ofNat]
  have h1 : (i ≥ 0 ∧ i < v.my_size) := ⟨h0, hi⟩
  have h2 : ¬ (((i.toNat / 8 : Nat) : Int) < 0 ∨ v.data.length ≤ i.toNat / 8) := by omega
  have h3 : (0 : Int) ≤ ((i.toNat % 8 : Nat) : Int) ∧ ((i.toNat % 8 : Nat) : Int) < 32 := by
    omega
  simp only [h1, h2, h3, and_self, if_true, if_false]

theorem store_valid (v : vector_bool) (hv : v.valid) (i : Int) (h0 : 0 ≤ i)
    (hi : i < v.my_size) (x : Bool) :
    ∃ byte, v.data[i.toNat / 8]? = some byte ∧
      v.store i x = .ok ⟨v.my_size, v.data.set (i.toNat / 8)
        (if x = true then to_uint8 (byte.val ||| 2 ^ (i.toNat % 8))
         else to_uint8 (byte.val &&& int_complement (2 ^ (i.toNat % 8))))⟩ := by
  have hb := byte_in_buffer v hv i h0 hi
  have hk : i.toNat % 8 < 8 := Nat.mod_lt _ (by decide)
  refine ⟨v.data[i.toNat / 8], List.getElem?_eq_getElem hb, ?_⟩
  simp only [vector_bool.store, operator_index_valid v hv i h0 hi,
    bool_reference.operator_assign, List.getElem?_eq_getElem hb, mask_val _ hk]
  cases x <;> simp

theorem read_valid (v : vector_bool) (hv : v.valid) (j : Int) (h0 : 0 ≤ j)
    (hj : j < v.my_size) :
    ∃ byte, v.data[j.toNat / 8]? = some byte ∧
      v.operator_index_const j = .ok (byte.val.testBit (j.toNat % 8)) := by
  have hb := byte_in_buffer v hv j h0 hj
  obtain ⟨hd, hm⟩ := tdiv_tmod_nonneg j h0
  refine ⟨v.data[j.toNat / 8], List.getElem?_eq_getElem hb, ?_⟩
  have h1 : (j ≥ 0 ∧ j < v.my_size) := ⟨h0, hj⟩
  have h2 : ¬ (((j.toNat / 8 : Nat) : Int) < 0 ∨ ((j.toNat % 8 : Nat) : Int) < 0) := by omega
  simp only [vector_bool.operator_index_const, vector_bool.check_index, hd, hm,
    Int.toNat_ofNat, h1, h2, and_self, if_true, if_false, List.getElem?_eq_getElem hb,
    read_bit_eq_testBit]

theorem testBit_after_put (byte : uint8_t) (k j : Nat) (hk : k < 8) (hj : j < 8) (x : Bool) :
    (if x = true then to_uint8 (byte.val ||| 2 ^ k)
      else to_uint8 (byte.val &&& int_complement (2 ^ k))).val.testBit j
      = if k = j then x else byte.val.testBit j := by
  have hj32 : j < 32 := by omega
  cases x
  · simp only [Bool.false_eq_true, if_false, testBit_to_uint8, Nat.testBit_and,
      testBit_int_complement k j hk, hj, hj32, decide_True, Bool.true_and]
    by_cases h : k = j <;> simp [h]
  · simp only [if_true, testBit_to_uint8, Nat.testBit_or, Nat.testBit_two_pow, hj,
      decide_True, Bool.true_and]
    by_cases h : k = j <;> simp [h]

theorem store_keeps_valid (v w : vector_bool) (hv : v.valid) (i : Int) (h0 : 0 ≤ i)
    (hi : i < v.my_size) (x : Bool) (hw : v.store i x = .ok w) :
    w.valid ∧ w.my_size = v.my_size := by
  obtain ⟨byte, _, hs⟩ := store_valid v hv i h0 hi x
  rw [hs] at hw
  injection hw with hw
  subst hw
  exact ⟨by simpa [vector_bool.valid] using hv, rfl⟩

theorem store_read_same (v : vector_bool) (hv : v.valid) (i : Int) (h0 : 0 ≤ i)
    (hi : i < v.my_size) (x : Bool) :
    ∃ w, v.store i x = .ok w ∧ w.operator_index_const i = .ok x := by
  obtain ⟨byte, hbyte, hs⟩ := store_valid v hv i h0 hi x
  refine ⟨_, hs, ?_⟩
  have hw := store_keeps_valid v _ hv i h0 hi x hs
  obtain ⟨b2, hb2, hr⟩ := read_valid _ hw.1 i h0 (by rw [hw.2]; exact hi)
  rw [hr]
  have hb := byte_in_buffer v hv i h0 hi
  have hk : i.toNat % 8 < 8 := Nat.mod_lt _ (by decide)
  simp only [List.getElem?_set_self hb, Option.some.injEq] at hb2
  rw [← hb2, testBit_after_put byte _ _ hk hk x, if_pos rfl]

theorem store_read_other (v : vector_bool) (hv : v.valid) (i j : Int) (h0 : 0 ≤ i)
    (hi : i < v.my_size) (hj0 : 0 ≤ j) (hj : j < v.my_size) (hij : i ≠ j) (x : Bool) :
    ∃ w y, v.store i x = .ok w ∧ v.operator_index_const j = .ok y ∧
      w.operator_index_const j = .ok y := by
  obtain ⟨byte, hbyte, hs⟩ := store_valid v hv i h0 hi x
  have hw := store_keeps_valid v _ hv i h0 hi x hs
  obtain ⟨b1, hb1, hr1⟩ := read_valid v hv j hj0 hj
  obtain ⟨b2, hb2, hr2⟩ := read_valid _ hw.1 j hj0 (by rw [hw.2]; exact hj)
  refine ⟨_, _, hs, hr1, ?_⟩
  rw [hr2]
  have hb := byte_in_buffer v hv i h0 hi
  have hki : i.toNat % 8 < 8 := Nat.mod_lt _ (by decide)
  have hkj : j.toNat % 8 < 8 := Nat.mod_lt _ (by decide)
  by_cases hbyte_eq : i.toNat / 8 = j.toNat / 8
  · have hne : i.toNat % 8 ≠ j.toNat % 8 := by omega
    rw [← hbyte_eq] at hb2 hb1
    simp only [List.getElem?_set_self hb, Option.some.injEq] at hb2
    rw [hbyte] at hb1
    injection hb1 with hb1
    rw [← hb2, testBit_after_put byte _ _ hki hkj x, if_neg hne, hb1]
  · simp only [List.getElem?_set_ne hbyte_eq] at hb2
    rw [hb1] at hb2
    injection hb2 with hb2
    rw [hb2]

/-! ## Claims on the bit-packed container -/

/-- Claim C1: write/read round trip. For every `vector<bool>` whose buffer has the
`(my_size+7)/8` bytes of its constructor, whatever these bytes hold, every index `i` with
`0 <= i < size()` and every boolean `x`, the statement `b[i] = x` (assignment through the
proxy of the mutable `operator[]`) returns, and the const `operator[]` then reads `x` at
index `i`. -/
theorem C1_write_read_round_trip (v : vector_bool) (hv : v.valid) (i : Int) (h0 : 0 ≤ i)
    (hi : i < v.size) (x : Bool) :
    ∃ w, v.store i x = .ok w ∧ w.operator_index_const i = .ok x :=
  store_read_same v hv i h0 hi x

theorem C1_write_read_round_trip_witness :
    (vector_bool.mk 13 [170, 255]).valid ∧ (0 : Int) ≤ 9 ∧
      (9 : Int) < (vector_bool.mk 13 [170, 255]).size ∧
      ∃ w, (vector_bool.mk 13 [170, 255]).store 9 false = .ok w ∧
        w.operator_index_const 9 = .ok false :=
  ⟨by decide, by decide, by decide,
    C1_write_read_round_trip (vector_bool.mk 13 [170, 255]) (by decide) 9 (by decide)
      (by decide) false⟩

/-- Claim C2: no cross-bit interference. For every `vector<bool>` with the buffer of its
constructor, whatever it holds, all indices `i != j` with `0 <= i, j < size()` (in the same
byte or in different bytes) and every boolean `x`, the statement `b[i] = x` returns, and
the const `operator[]` reads at index `j` the same value after it as before it. -/
theorem C2_no_cross_bit_interference (v : vector_bool) (hv : v.valid) (i j : Int)
    (h0 : 0 ≤ i) (hi : i < v.size) (hj0 : 0 ≤ j) (hj : j < v.size) (hij : i ≠ j)
    (x : Bool) :
    ∃ w y, v.store i x = .ok w ∧ v.operator_index_const j = .ok y ∧
      w.operator_index_const j = .ok y :=
  store_read_other v hv i j h0 hi hj0 hj hij x

theorem C2_no_cross_bit_interference_witness :
    (vector_bool.mk 13 [170, 255]).valid ∧ (0 : Int) ≤ 9 ∧
      (9 : Int) < (vector_bool.mk 13 [170, 255]).size ∧ (0 : Int) ≤ 10 ∧
      (10 : Int) < (vector_bool.mk 13 [170, 255]).size ∧ (9 : Int) ≠ 10 ∧
      ∃ w y, (vector_bool.mk 13 [170, 255]).store 9 false = .ok w ∧
        (vector_bool.mk 13 [170, 255]).operator_index_const 10 = .ok y ∧
        w.operator_index_const 10 = .ok y :=
  ⟨by decide, by decide, by decide, by decide, by decide, by decide,
    C2_no_cross_bit_interference (vector_bool.mk 13 [170, 255]) (by decide) 9 10
      (by decide) (by decide) (by decide) (by decide) (by decide) false⟩

theorem and_mask_ne_zero (b k : Nat) : ((b &&& 2 ^ k) != 0) = b.testBit k := by
  rw [Nat.and_two_pow]
  cases b.testBit k <;> simp

theorem load_valid (v : vector_bool) (hv : v.valid) (j : Int) (h0 : 0 ≤ j)
    (hj : j < v.my_size) :
    ∃ byte, v.data[j.toNat / 8]? = some byte ∧
      v.load j = .ok (byte.val.testBit (j.toNat % 8)) := by
  have hb := byte_in_buffer v hv j h0 hj
  have hk : j.toNat % 8 < 8 := Nat.mod_lt _ (by decide)
  refine ⟨v.data[j.toNat / 8], List.getElem?_eq_getElem hb, ?_⟩
  simp only [vector_bool.load, operator_index_valid v hv j h0 hj,
    bool_reference.operator_bool, List.getElem?_eq_getElem hb, mask_val _ hk,
    and_mask_ne_zero]

theorem load_eq_read (v : vector_bool) (hv : v.valid) (j : Int) (h0 : 0 ≤ j)
    (hj : j < v.my_size) : v.load j = v.operator_index_const j := by
  obtain ⟨b1, hb1, h1⟩ := load_valid v hv j h0 hj
  obtain ⟨b2, hb2, h2⟩ := read_valid v hv j h0 hj
  rw [hb1] at hb2
  injection hb2 with hb2
  rw [h1, h2, hb2]

theorem main_fill_spec (fuel : Nat) : ∀ (i : Int) (b : vector_bool), b.valid →
    b.my_size = 13 → 0 ≤ i → i ≤ 13 → (13 - i).toNat < fuel →
    (∀ j : Int, 0 ≤ j → j < i → b.operator_index_const j = .ok (Int.tmod j 3 != 0)) →
    ∃ r, main_fill fuel i b = .ok r ∧ r.valid ∧ r.my_size = 13 ∧
      ∀ j : Int, 0 ≤ j → j < 13 → r.operator_index_const j = .ok (Int.tmod j 3 != 0) := by
  induction fuel with
  | zero => intro i b _ _ _ _ hf; omega
  | succ fuel ih =>
    intro i b hv hn h0 h13 hf hinv
    by_cases hi : i < 13
    · have hin : i < b.my_size := by omega
      obtain ⟨w, hs, hr⟩ := store_read_same b hv i h0 hin (Int.tmod i 3 != 0)
      obtain ⟨hwv, hwn⟩ := store_keeps_valid b w hv i h0 hin _ hs
      have hnext : ∀ j : Int, 0 ≤ j → j < i + 1 →
          w.operator_index_const j = .ok (Int.tmod j 3 != 0) := by
        intro j hj0 hj
        by_cases hji : j = i
        · rw [hji]; exact hr
        · obtain ⟨w2, y, hs2, hy, hy2⟩ :=
            store_read_other b hv i j h0 hin hj0 (by omega) (fun h => hji h.symm)
              (Int.tmod i 3 != 0)
          rw [hs] at hs2
          injection hs2 with hs2
          rw [hs2, hy2, ← hy]
          exact hinv j hj0 (by omega)
      obtain ⟨r, hr1, hr2⟩ := ih (i + 1) w hwv (by omega) (by omega) (by omega) (by omega) hnext
      refine ⟨r, ?_, hr2⟩
      simp only [main_fill, hi, if_true, hs, hr1]
    · have hi13 : i = 13 := by omega
      refine ⟨b, ?_, hv, hn, ?_⟩
      · simp only [main_fill, hi, if_false]
      · intro j hj0 hj; exact hinv j hj0 (by omega)

theorem main_b_spec (heap : Nat → uint8_t) :
    ∃ b, main_b heap = .ok b ∧ b.valid ∧ b.my_size = 13 ∧
      ∀ j : Int, 0 ≤ j → j < 13 → b.operator_index_const j = .ok (Int.tmod j 3 != 0) := by
  have hnew : vector_bool.new 13 heap = .ok ⟨13, [heap 0, heap 1]⟩ := rfl
  have hv : (vector_bool.mk 13 [heap 0, heap 1]).valid := by
    simp [vector_bool.valid, INT_MAX]
  obtain ⟨r, hr, hrest⟩ := main_fill_spec 14 0 ⟨13, [heap 0, heap 1]⟩ hv rfl (by decide)
    (by decide) (by decide) (fun j h0 h1 => absurd h1 (by omega))
  exact ⟨r, by simp only [main_b, hnew, hr], hrest⟩

/-- Claim C3: the demo driver. Whatever the two bytes of the fresh buffer of
`vector<bool> b(13)` hold, the loop `for (i = 0; i < 13; i++) b[i] = i % 3;` returns,
and afterwards the const `operator[]` reads `false, true, true, false, true, true, false,
true, true, false, true, true, false` at the indices `0..12`, that is `(i % 3) != 0` at
index `i`; the second loop of the driver, which reads `b[i]` through the proxy, sends the
same thirteen values to the stream. -/
theorem C3_demo_driver (heap : Nat → uint8_t) :
    ∃ b, main_b heap = .ok b ∧
      (List.range 13).map (fun i => b.operator_index_const (i : Int))
        = [.ok false, .ok true, .ok true, .ok false, .ok true, .ok true, .ok false,
           .ok true, .ok true, .ok false, .ok true, .ok true, .ok false] ∧
      (∀ i : Fin 13, b.operator_index_const (i.val : Int) = .ok (i.val % 3 != 0)) ∧
      main_print 14 0 b [] = .ok [false, true, true, false, true, true, false,
        true, true, false, true, true, false] := by
  obtain ⟨b, hb, hv, hn, hall⟩ := main_b_spec heap
  have hload : ∀ j : Int, 0 ≤ j → j < 13 → b.load j = .ok (Int.tmod j 3 != 0) := by
    intro j h0 h1
    rw [load_eq_read b hv j h0 (by omega)]
    exact hall j h0 h1
  refine ⟨b, hb, ?_, ?_, ?_⟩
  · have e : List.range 13 = [0, 1, 2, 3, 4, 5, 6, 7, 8, 9, 10, 11, 12] := by decide
    rw [e]
    simp only [List.map, Nat.cast_ofNat, Nat.cast_zero, Nat.cast_one]
    rw [hall 0 (by decide) (by decide), hall 1 (by decide) (by decide),
      hall 2 (by decide) (by decide), hall 3 (by decide) (by decide),
      hall 4 (by decide) (by decide), hall 5 (by decide) (by decide),
      hall 6 (by decide) (by decide), hall 7 (by decide) (by decide),
      hall 8 (by decide) (by decide), hall 9 (by decide) (by decide),
      hall 10 (by decide) (by decide), hall 11 (by decide) (by decide),
      hall 12 (by decide) (by decide)]
    rfl
  · intro i
    have h := hall (i.val : Int) (by omega) (by omega)
    rw [h]
    have e : Int.tmod (i.val : Int) 3 = ((i.val % 3 : Nat) : Int) := by
      rw [Int.tmod_eq_emod (by omega) (by decide)]; omega
    rw [e]
    congr 1
    rw [Bool.eq_iff_iff]
    simp only [bne_iff_ne, ne_eq]
    omega
  · have h0 := hload 0 (by decide) (by decide)
    have h1 := hload 1 (by decide) (by decide)
    have h2 := hload 2 (by decide) (by decide)
    have h3 := hload 3 (by decide) (by decide)
    have h4 := hload 4 (by decide) (by decide)
    have h5 := hload 5 (by decide) (by decide)
    have h6 := hload 6 (by decide) (by decide)
    have h7 := hload 7 (by decide) (by decide)
    have h8 := hload 8 (by decide) (by decide)
    have h9 := hload 9 (by decide) (by decide)
    have h10 := hload 10 (by decide) (by decide)
    have h11 := hload 11 (by decide) (by decide)
    have h12 := hload 12 (by decide) (by decide)
    simp only [main_print, Int.reduceAdd, Int.reduceLT, if_true, if_false, List.nil_append,
      List.cons_append, zero_add, h0, h1, h2, h3, h4, h5, h6, h7, h8, h9, h10, h11, h12]
    rfl


/-! ## Index checks -/

theorem buffer_at_ne_assert {T : Type} (d : List T) (i : Int) :
    buffer_at d i ≠ .error .assert_failed := by
  unfold buffer_at
  split
  · simp
  · split <;> simp

theorem vector_read_assert_iff {T : Type} (v : vector T) (i : Int) :
    v.operator_index_const i = .error .assert_failed ↔ (i < 0 ∨ i ≥ v.my_size) := by
  unfold vector.operator_index_const vector.check_index
  by_cases h : i ≥ 0 ∧ i < v.my_size
  · simp only [h, and_self, if_true]
    constructor
    · intro hc; exact absurd hc (buffer_at_ne_assert _ _)
    · intro hc; omega
  · simp only [h, if_false, true_iff]
    omega

theorem vector_index_assert_iff {T : Type} (v : vector T) (i : Int) :
    v.operator_index i = .error .assert_failed ↔ (i < 0 ∨ i ≥ v.my_size) := by
  unfold vector.operator_index vector.check_index
  by_cases h : i ≥ 0 ∧ i < v.my_size
  · simp only [h, and_self, if_true]
    constructor
    · intro hc
      split at hc <;> simp at hc
    · intro hc; omega
  · simp only [h, if_false, true_iff]
    omega

theorem bool_read_assert_iff (b : vector_bool) (i : Int) :
    b.operator_index_const i = .error .assert_failed ↔ (i < 0 ∨ i ≥ b.my_size) := by
  unfold vector_bool.operator_index_const vector_bool.check_index
  by_cases h : i ≥ 0 ∧ i < b.my_size
  · simp only [h, and_self, if_true]
    constructor
    · intro hc
      split at hc
      · simp at hc
      · split at hc <;> simp at hc
    · intro hc; omega
  · simp only [h, if_false, true_iff]
    omega

theorem bool_index_assert_iff (b : vector_bool) (i : Int) :
    b.operator_index i = .error .assert_failed ↔ (i < 0 ∨ i ≥ b.my_size) := by
  unfold vector_bool.operator_index vector_bool.check_index
  by_cases h : i ≥ 0 ∧ i < b.my_size
  · simp only [h, and_self, if_true]
    constructor
    · intro hc
      split at hc
      · simp at hc
      · unfold bool_reference.new at hc
        split at hc <;> simp at hc
    · intro hc; omega
  · simp only [h, if_false, true_iff]
    omega

theorem vector_read_valid {T : Type} (v : vector T) (hv : v.valid) (i : Int) (h0 : 0 ≤ i)
    (hi : i < v.my_size) :
    ∃ x, v.data[i.toNat]? = some x ∧ v.operator_index_const i = .ok x := by
  have hb : i.toNat < v.data.length := by
    obtain ⟨_, hlen⟩ := hv; omega
  refine ⟨v.data[i.toNat], List.getElem?_eq_getElem hb, ?_⟩
  have h1 : i ≥ 0 ∧ i < v.my_size := ⟨h0, hi⟩
  have h2 : ¬ i < 0 := by omega
  simp only [vector.operator_index_const, vector.check_index, h1, and_self, if_true,
    buffer_at, h2, if_false, List.getElem?_eq_getElem hb]

theorem vector_index_valid {T : Type} (v : vector T) (hv : v.valid) (i : Int) (h0 : 0 ≤ i)
    (hi : i < v.my_size) : v.operator_index i = .ok i.toNat := by
  have hb : i.toNat < v.data.length := by
    obtain ⟨_, hlen⟩ := hv; omega
  have h1 : i ≥ 0 ∧ i < v.my_size := ⟨h0, hi⟩
  have h2 : ¬ (i < 0 ∨ v.data.length ≤ i.toNat) := by omega
  simp only [vector.operator_index, vector.check_index, h1, and_self, if_true, h2, if_false]


/-- Claim C4: out-of-range indexing is fatal on both variants. For the generic container
and for the bit-packed one, for every size `n`, every integer `i` and every content of the
buffer, the read form and the write form of `operator[](i)` end in the failed `assert` of
`check_index` exactly when `i < 0` or `i >= n`. The result is the failed assertion whatever
the buffer is, the empty buffer included, on which touching any cell is a different fault:
no element or byte is accessed when the check fails. For `0 <= i < n`, on a container whose
buffer has the length its constructor gives it, all four forms return. -/
theorem C4_out_of_range_is_fatal {T : Type} (n i : Int) (d : List T) (m : List uint8_t) :
    ((vector.mk n d).operator_index_const i = .error .assert_failed ↔ (i < 0 ∨ i ≥ n)) ∧
    ((vector.mk n d).operator_index i = .error .assert_failed ↔ (i < 0 ∨ i ≥ n)) ∧
    ((vector_bool.mk n m).operator_index_const i = .error .assert_failed ↔ (i < 0 ∨ i ≥ n)) ∧
    ((vector_bool.mk n m).operator_index i = .error .assert_failed ↔ (i < 0 ∨ i ≥ n)) ∧
    ((vector.mk n d).valid → 0 ≤ i → i < n →
      (∃ x, (vector.mk n d).operator_index_const i = .ok x) ∧
      (∃ r, (vector.mk n d).operator_index i = .ok r)) ∧
    ((vector_bool.mk n m).valid → 0 ≤ i → i < n →
      (∃ x, (vector_bool.mk n m).operator_index_const i = .ok x) ∧
      (∃ r, (vector_bool.mk n m).operator_index i = .ok r)) := by
  refine ⟨vector_read_assert_iff _ i, vector_index_assert_iff _ i, bool_read_assert_iff _ i,
    bool_index_assert_iff _ i, ?_, ?_⟩
  · intro hv h0 hi
    obtain ⟨x, _, hx⟩ := vector_read_valid _ hv i h0 hi
    exact ⟨⟨x, hx⟩, ⟨_, vector_index_valid _ hv i h0 hi⟩⟩
  · intro hv h0 hi
    obtain ⟨byte, _, hx⟩ := read_valid _ hv i h0 hi
    exact ⟨⟨_, hx⟩, ⟨_, operator_index_valid _ hv i h0 hi⟩⟩

theorem C4_out_of_range_is_fatal_witness :
    ((vector.mk 4 [] : vector Int).operator_index_const (-1) = .error .assert_failed) ∧
    ((vector_bool.mk 13 []).operator_index 13 = .error .assert_failed) ∧
    (∃ x, (vector.mk 4 [1, 1, 2, -3] : vector Int).operator_index_const 2 = .ok x) ∧
    (∃ r, (vector_bool.mk 13 [170, 255]).operator_index 12 = .ok r) :=
  ⟨(@C4_out_of_range_is_fatal Int 4 (-1) [] []).1.2 (by decide),
   (@C4_out_of_range_is_fatal Int 13 13 [] []).2.2.2.1.2 (by decide),
   ((@C4_out_of_range_is_fatal Int 4 2 [1, 1, 2, -3] []).2.2.2.2.1 (by decide) (by decide)
      (by decide)).1,
   ((@C4_out_of_range_is_fatal Int 13 12 [] [170, 255]).2.2.2.2.2 (by decide) (by decide)
      (by decide)).2⟩

/-! ## Sizing of the bit-packed container -/

theorem alloc_len_in_range (n : Int) (h0 : 0 ≤ n) (h1 : n + 7 ≤ INT_MAX) :
    vector_bool.alloc_len n = (n + 7) / 8 := by
  unfold INT_MAX at h1
  have hw : wrap_int (n + 7) = n + 7 := by unfold wrap_int; omega
  unfold vector_bool.alloc_len
  rw [hw, Int.tdiv_eq_ediv (by omega) (by decide)]

theorem new_in_range (n : Int) (h0 : 0 ≤ n) (h1 : n + 7 ≤ INT_MAX) (heap : Nat → uint8_t) :
    vector_bool.new n heap
      = .ok ⟨n, (List.range ((n + 7) / 8).toNat).map heap⟩ := by
  have h := alloc_len_in_range n h0 h1
  have h2 : ¬ (n + 7) / 8 < 0 := by omega
  simp only [vector_bool.new, h, h2, if_false]

theorem new_ok_valid (n : Int) (h0 : 0 ≤ n) (hmax : n ≤ INT_MAX) (heap : Nat → uint8_t)
    (b : vector_bool) (hb : vector_bool.new n heap = .ok b) : b.valid := by
  by_cases h1 : n + 7 ≤ INT_MAX
  · rw [new_in_range n h0 h1 heap] at hb
    injection hb with hb
    subst hb
    refine ⟨h0, h1, ?_⟩
    simp only [List.length_map, List.length_range]; omega
  · exfalso
    unfold INT_MAX at h1 hmax
    have hw : wrap_int (n + 7) = n + 7 - 4294967296 := by unfold wrap_int; omega
    have hneg : vector_bool.alloc_len n < 0 := by
      unfold vector_bool.alloc_len
      rw [hw]
      have h2 : n + 7 - 4294967296 = -(4294967296 - (n + 7)) := by omega
      rw [h2, Int.neg_tdiv, Int.tdiv_eq_ediv (by omega) (by decide)]
      omega
    simp only [vector_bool.new, hneg, if_true] at hb
    cases hb

/-- Claim C5, as the code has it: for every `n` with `0 <= n` and `n + 7 <= INT_MAX`
(`n = 0` and `n` not a multiple of 8 included), whatever the fresh allocation holds, the
constructor `vector<bool>(n)` returns a container with `size() == n` and a buffer of
`(n + 7) / 8` bytes, which is `ceil(n/8)`. -/
theorem C5_sizing_in_range (n : Int) (h0 : 0 ≤ n) (h1 : n + 7 ≤ INT_MAX)
    (heap : Nat → uint8_t) :
    ∃ b, vector_bool.new n heap = .ok b ∧ b.size = n ∧
      (b.data.length : Int) = (n + 7) / 8 ∧
      (b.data.length : Int) = ⌈(n : ℚ) / 8⌉ ∧ b.valid := by
  refine ⟨_, new_in_range n h0 h1 heap, rfl, ?_, ?_, h0, h1, ?_⟩
  · simp only [List.length_map, List.length_range]; omega
  · simp only [List.length_map, List.length_range]
    have e : (((n + 7) / 8).toNat : Int) = (n + 7) / 8 := by omega
    rw [e]
    symm
    rw [Int.ceil_eq_iff]
    have ha : 8 * ((n + 7) / 8) - 8 < n := by omega
    have hb : n ≤ 8 * ((n + 7) / 8) := by omega
    have ha2 : (8 : ℚ) * (((n + 7) / 8 : Int) : ℚ) - 8 < (n : ℚ) := by exact_mod_cast ha
    have hb2 : (n : ℚ) ≤ 8 * (((n + 7) / 8 : Int) : ℚ) := by exact_mod_cast hb
    constructor
    · linarith
    · linarith
  · simp only [List.length_map, List.length_range]; omega

theorem C5_sizing_in_range_witness :
    (0 : Int) ≤ 13 ∧ (13 : Int) + 7 ≤ INT_MAX ∧
      ∃ b, vector_bool.new 13 (fun _ => 0) = .ok b ∧ b.size = 13 ∧
        (b.data.length : Int) = (13 + 7) / 8 ∧
        (b.data.length : Int) = ⌈((13 : Int) : ℚ) / 8⌉ ∧ b.valid :=
  ⟨by decide, by decide, C5_sizing_in_range 13 (by decide) (by decide) (fun _ => 0)⟩

theorem new_thirteen_two_bytes (heap : Nat → uint8_t) :
    ∃ b, vector_bool.new 13 heap = .ok b ∧ b.size = 13 ∧ b.data.length = 2 :=
  ⟨_, rfl, rfl, rfl⟩

/-- Counterexample to claim C5 as stated: `n = 2147483647` is non-negative, `my_size + 7`
leaves the range of `int`, the wrapped array size is negative and the constructor ends in
`bad_array_new_length`: there is no container and no buffer of `ceil(n/8)` bytes. -/
theorem C5_sizing_counterexample :
    (0 : Int) ≤ 2147483647 ∧ 2147483647 ≤ INT_MAX ∧
      vector_bool.new 2147483647 (fun _ => 0) = .error .bad_array_new_length ∧
      ¬ ∃ b, vector_bool.new 2147483647 (fun _ => 0) = .ok b ∧ b.size = 2147483647 ∧
        (b.data.length : Int) = (2147483647 + 7) / 8 := by
  have h : vector_bool.new 2147483647 (fun _ => 0) = .error .bad_array_new_length := rfl
  refine ⟨by decide, by decide, h, ?_⟩
  rintro ⟨b, hb, _⟩
  rw [h] at hb
  cases hb


/-! ## The generic container: copying -/

theorem std_copy_spec {T : Type} (src : List T) (fuel : Nat) :
    ∀ (first last : Nat) (dst : List T) (d_first : Nat), first ≤ last → last ≤ src.length →
      d_first + (last - first) ≤ dst.length → last - first < fuel →
      ∃ r, std_copy src fuel first last dst d_first = .ok r ∧ r.length = dst.length ∧
        (∀ k, k < d_first → r[k]? = dst[k]?) ∧
        (∀ k, d_first + (last - first) ≤ k → r[k]? = dst[k]?) ∧
        (∀ k, k < last - first → r[d_first + k]? = src[first + k]?) := by
  induction fuel with
  | zero => intro _ _ _ _ _ _ _ hf; omega
  | succ fuel ih =>
    intro first last dst d_first hfl hls hd hf
    by_cases hne : first = last
    · subst hne
      refine ⟨dst, by simp [std_copy], rfl, fun _ _ => rfl, fun _ _ => rfl, ?_⟩
      intro k hk; omega
    · have hlt : first < src.length := by omega
      have hdl : d_first < dst.length := by omega
      obtain ⟨r, hr, hlen, hlow, hhigh, hmid⟩ :=
        ih (first + 1) last (dst.set d_first src[first]) (d_first + 1) (by omega) hls
          (by rw [List.length_set]; omega) (by omega)
      refine ⟨r, ?_, ?_, ?_, ?_, ?_⟩
      · simp only [std_copy, ne_eq, hne, not_false_eq_true, if_true,
          List.getElem?_eq_getElem hlt, hdl, hr]
      · rw [hlen, List.length_set]
      · intro k hk
        rw [hlow k (by omega), List.getElem?_set_ne (by omega)]
      · intro k hk
        rw [hhigh k (by omega), List.getElem?_set_ne (by omega)]
      · intro k hk
        cases k with
        | zero =>
          rw [Nat.add_zero, Nat.add_zero, hlow d_first (by omega),
            List.getElem?_set_self hdl, List.getElem?_eq_getElem hlt]
        | succ k =>
          have h := hmid k (by omega)
          have e1 : d_first + (k + 1) = d_first + 1 + k := by omega
          have e2 : first + (k + 1) = first + 1 + k := by omega
          rw [e1, e2, h]

theorem copy_from_valid {T : Type} (that : vector T) (hv : that.valid) (data : List T)
    (hlen : data.length = that.data.length) : copy_from that data = .ok that.data := by
  obtain ⟨h0, hl⟩ := hv
  have hn : that.my_size.toNat = that.data.length := by omega
  obtain ⟨r, hr, hrl, _, _, hmid⟩ :=
    std_copy_spec that.data (that.my_size.toNat + 1) 0 that.my_size.toNat data 0
      (by omega) (by omega) (by omega) (by omega)
  have h2 : ¬ that.my_size < 0 := by omega
  simp only [copy_from, h2, if_false, hr]
  congr 1
  apply List.ext_getElem?
  intro k
  by_cases hk : k < that.data.length
  · have := hmid k (by omega)
    simpa using this
  · rw [List.getElem?_eq_none (by omega), List.getElem?_eq_none (by omega)]

theorem vector_new_nonneg {T : Type} (n : Int) (h0 : 0 ≤ n) (heap : Nat → T) :
    vector.new n heap = .ok ⟨n, (List.range n.toNat).map heap⟩ := by
  have h2 : ¬ n < 0 := by omega
  simp only [vector.new, h2, if_false]

theorem vector_copy_valid {T : Type} (a : vector T) (hv : a.valid) (heap : Nat → T) :
    a.copy heap = .ok a := by
  have hl : ((List.range a.my_size.toNat).map heap).length = a.data.length := by
    obtain ⟨h0, hl⟩ := hv
    simp only [List.length_map, List.length_range]; omega
  simp only [vector.copy, vector_new_nonneg a.my_size hv.1 heap, copy_from_valid a hv _ hl]

theorem vector_assign_valid {T : Type} (a b : vector T) (hb : b.valid)
    (hlen : a.data.length = b.data.length) (hab : a.my_size = b.my_size) :
    a.operator_assign b = .ok b := by
  simp only [vector.operator_assign, hab, if_true, copy_from_valid b hb _ hlen]


/-! ## The generic container: addition -/

theorem buffer_at_valid {T : Type} (d : List T) (i : Int) (h0 : 0 ≤ i)
    (hi : i.toNat < d.length) : buffer_at d i = .ok d[i.toNat] := by
  have h2 : ¬ i < 0 := by omega
  simp only [buffer_at, h2, if_false, List.getElem?_eq_getElem hi]

theorem vector_store_valid {T : Type} (v : vector T) (hv : v.valid) (i : Int) (h0 : 0 ≤ i)
    (hi : i < v.my_size) (x : T) :
    v.store i x = .ok ⟨v.my_size, v.data.set i.toNat x⟩ := by
  simp only [vector.store, vector_index_valid v hv i h0 hi]

theorem add_loop_spec {T : Type} [Add T] (a b : vector T) (ha : a.valid) (hb : b.valid)
    (hab : a.my_size = b.my_size) (fuel : Nat) :
    ∀ (i : Int) (sum : vector T), sum.valid → sum.my_size = a.my_size → 0 ≤ i →
      i ≤ a.my_size → (a.my_size - i).toNat < fuel →
      ∃ r, vector.add_loop a b fuel i sum = .ok r ∧ r.valid ∧ r.my_size = a.my_size ∧
        (∀ k, k < i.toNat → r.data[k]? = sum.data[k]?) ∧
        (∀ k, i.toNat ≤ k → k < a.my_size.toNat →
          ∃ x y, a.data[k]? = some x ∧ b.data[k]? = some y ∧ r.data[k]? = some (x + y)) := by
  induction fuel with
  | zero => intro _ _ _ _ _ _ hf; omega
  | succ fuel ih =>
    intro i sum hs hsn h0 hin hf
    by_cases hi : i < a.my_size
    · have hia : i.toNat < a.data.length := by
        obtain ⟨_, hl⟩ := ha; omega
      have his : i.toNat < sum.data.length := by
        obtain ⟨_, hl⟩ := hs; omega
      obtain ⟨y, hy, hyr⟩ := vector_read_valid b hb i h0 (by omega)
      have hst := vector_store_valid sum hs i h0 (by omega) (a.data[i.toNat] + y)
      have hnv : (vector.mk sum.my_size (sum.data.set i.toNat (a.data[i.toNat] + y))).valid := by
        obtain ⟨hs0, hsl⟩ := hs
        exact ⟨hs0, by simpa [List.length_set] using hsl⟩
      obtain ⟨r, hr, hrv, hrn, hlow, hhigh⟩ :=
        ih (i + 1) _ hnv hsn (by omega) (by omega) (by omega)
      refine ⟨r, ?_, hrv, hrn, ?_, ?_⟩
      · simp only [vector.add_loop, hi, if_true, buffer_at_valid a.data i h0 hia, hyr, hst, hr]
      · intro k hk
        rw [hlow k (by omega)]
        exact List.getElem?_set_ne (by omega)
      · intro k hk1 hk2
        by_cases hki : k = i.toNat
        · subst hki
          refine ⟨a.data[i.toNat], y, List.getElem?_eq_getElem hia, hy, ?_⟩
          rw [hlow i.toNat (by omega)]
          exact List.getElem?_set_self his
        · exact hhigh k (by omega) hk2
    · refine ⟨sum, ?_, hs, hsn, fun _ _ => rfl, ?_⟩
      · simp only [vector.add_loop, hi, if_false]
      · intro k hk1 hk2; omega

theorem vector_add_valid {T : Type} [Add T] (a b : vector T) (ha : a.valid) (hb : b.valid)
    (hab : a.my_size = b.my_size) (heap : Nat → T) :
    ∃ s, a.operator_add b heap = .ok s ∧ s.valid ∧ s.my_size = a.my_size ∧
      ∀ k, k < a.my_size.toNat →
        ∃ x y, a.data[k]? = some x ∧ b.data[k]? = some y ∧ s.data[k]? = some (x + y) := by
  have hnv : (vector.mk a.my_size ((List.range a.my_size.toNat).map heap)).valid := by
    refine ⟨ha.1, ?_⟩
    have := ha.1
    simp only [List.length_map, List.length_range]; omega
  obtain ⟨r, hr, hrv, hrn, _, hhigh⟩ :=
    add_loop_spec a b ha hb hab (a.my_size.toNat + 1) 0 _ hnv rfl (by omega) ha.1 (by omega)
  refine ⟨r, ?_, hrv, hrn, fun k hk => hhigh k (by simp) hk⟩
  simp only [vector.operator_add, hab, if_true]
  rw [← hab]
  simp only [vector_new_nonneg a.my_size ha.1 heap, hr]


/-! ## The generic container: size checks -/

theorem std_copy_ne_assert {T : Type} (src : List T) (fuel : Nat) :
    ∀ (first last : Nat) (dst : List T) (d_first : Nat),
      std_copy src fuel first last dst d_first ≠ .error .assert_failed := by
  induction fuel with
  | zero => intro _ _ _ _; simp [std_copy]
  | succ fuel ih =>
    intro first last dst d_first
    unfold std_copy
    split
    · split
      · simp
      · split
        · exact ih _ _ _ _
        · simp
    · simp

theorem copy_from_ne_assert {T : Type} (that : vector T) (data : List T) :
    copy_from that data ≠ .error .assert_failed := by
  unfold copy_from
  split
  · simp
  · exact std_copy_ne_assert _ _ _ _ _ _

theorem vector_assign_assert_iff {T : Type} (a b : vector T) :
    a.operator_assign b = .error .assert_failed ↔ a.my_size ≠ b.my_size := by
  unfold vector.operator_assign
  by_cases h : a.my_size = b.my_size
  · simp only [h, if_true, ne_eq, not_true_eq_false, iff_false]
    have := copy_from_ne_assert b a.data
    split
    · rename_i e he
      intro hc
      injection hc with hc
      exact this (by rw [he, hc])
    · simp
  · simp only [h, if_false, ne_eq, not_false_eq_true]

theorem vector_store_my_size {T : Type} (v w : vector T) (i : Int) (x : T)
    (h : v.store i x = .ok w) : w.my_size = v.my_size := by
  unfold vector.store at h
  split at h
  · simp at h
  · injection h with h
    rw [← h]

theorem add_loop_ne_assert {T : Type} [Add T] (a b : vector T) (hab : a.my_size = b.my_size)
    (fuel : Nat) : ∀ (i : Int) (sum : vector T), 0 ≤ i → sum.my_size = a.my_size →
      vector.add_loop a b fuel i sum ≠ .error .assert_failed := by
  induction fuel with
  | zero => intro _ _ _ _; simp [vector.add_loop]
  | succ fuel ih =>
    intro i sum h0 hs
    unfold vector.add_loop
    split
    · rename_i hi
      split
      · rename_i e he
        intro hc
        injection hc with hc
        exact buffer_at_ne_assert a.data i (by rw [he, hc])
      · split
        · rename_i e he
          intro hc
          injection hc with hc
          rw [hc] at he
          have := (vector_read_assert_iff b i).mp he
          omega
        · split
          · rename_i e he
            intro hc
            injection hc with hc
            rw [hc] at he
            unfold vector.store at he
            split at he
            · rename_i e2 he2
              injection he with he
              rw [he] at he2
              have := (vector_index_assert_iff sum i).mp he2
              omega
            · simp at he
          · rename_i next hnext
            exact ih (i + 1) next (by omega)
              (by rw [vector_store_my_size sum next i _ hnext, hs])
    · simp

theorem vector_new_eq {T : Type} (n : Int) (heap : Nat → T) :
    vector.new n heap = if n < 0 then .error .bad_array_new_length
      else .ok ⟨n, (List.range n.toNat).map heap⟩ := rfl

theorem vector_add_assert_iff {T : Type} [Add T] (a b : vector T) (heap : Nat → T) :
    a.operator_add b heap = .error .assert_failed ↔ a.my_size ≠ b.my_size := by
  unfold vector.operator_add
  by_cases h : a.my_size = b.my_size
  · simp only [h, if_true, ne_eq, not_true_eq_false, iff_false]
    split
    · rename_i e he
      intro hc
      injection hc with hc
      rw [hc, vector_new_eq] at he
      split at he <;> simp at he
    · rename_i sum hsum
      have hsn : sum.my_size = a.my_size := by
        rw [vector_new_eq] at hsum
        split at hsum
        · simp at hsum
        · injection hsum with hsum
          rw [← hsum, h]
      rw [← h]
      exact add_loop_ne_assert a b h _ 0 sum (by omega) hsn
  · simp only [h, if_false, ne_eq, not_false_eq_true]


/-! ## The generic container in the heap -/

theorem deref_ok_iff {T : Type} (o : vector_object) (h : Heap T) (v : vector T) :
    o.deref h = .ok v ↔ h[o.data]? = some v.data ∧ v.my_size = o.my_size := by
  unfold vector_object.deref
  cases hb : h[o.data]? with
  | none => simp
  | some block =>
    simp only [Except.ok.injEq, Option.some.injEq]
    constructor
    · intro e; rw [← e]; exact ⟨rfl, rfl⟩
    · rintro ⟨e1, e2⟩
      cases v
      simp only at e1 e2
      rw [e1, e2]

theorem deref_lt {T : Type} (o : vector_object) (h : Heap T) (v : vector T)
    (hd : o.deref h = .ok v) : o.data < h.length := by
  have h1 := ((deref_ok_iff o h v).mp hd).1
  by_contra hc
  rw [List.getElem?_eq_none (by omega)] at h1
  cases h1

theorem deref_append {T : Type} (o : vector_object) (h : Heap T) (v : vector T)
    (hd : o.deref h = .ok v) (block : List T) : o.deref (h ++ [block]) = .ok v := by
  have hlt := deref_lt o h v hd
  obtain ⟨h1, h2⟩ := (deref_ok_iff o h v).mp hd
  exact (deref_ok_iff o _ v).mpr ⟨by rw [List.getElem?_append_left hlt]; exact h1, h2⟩

theorem deref_new {T : Type} (h : Heap T) (n : Int) (block : List T) :
    (vector_object.mk n h.length).deref (h ++ [block]) = .ok ⟨n, block⟩ :=
  (deref_ok_iff _ _ _).mpr ⟨by simp, rfl⟩

theorem deref_set_self {T : Type} (o : vector_object) (h : Heap T) (v : vector T)
    (hd : o.deref h = .ok v) (block : List T) :
    o.deref (h.set o.data block) = .ok ⟨o.my_size, block⟩ :=
  (deref_ok_iff _ _ _).mpr ⟨List.getElem?_set_self (deref_lt o h v hd), rfl⟩

theorem deref_set_other {T : Type} (o p : vector_object) (h : Heap T) (v : vector T)
    (hd : o.deref h = .ok v) (hne : p.data ≠ o.data) (block : List T) :
    o.deref (h.set p.data block) = .ok v := by
  obtain ⟨h1, h2⟩ := (deref_ok_iff o h v).mp hd
  exact (deref_ok_iff _ _ _).mpr ⟨by rw [List.getElem?_set_ne hne]; exact h1, h2⟩

theorem heap_read_eq {T : Type} (h : Heap T) (o : vector_object) (v : vector T)
    (hd : o.deref h = .ok v) (i : Int) : heap_read h o i = v.operator_index_const i := by
  simp only [heap_read, hd]

theorem vector_store_read_same {T : Type} (v : vector T) (hv : v.valid) (i : Int) (h0 : 0 ≤ i)
    (hi : i < v.my_size) (x : T) :
    (vector.mk v.my_size (v.data.set i.toNat x)).operator_index_const i = .ok x := by
  have hb : i.toNat < v.data.length := by
    obtain ⟨_, hlen⟩ := hv; omega
  have hv2 : (vector.mk v.my_size (v.data.set i.toNat x)).valid :=
    ⟨hv.1, by simpa [List.length_set] using hv.2⟩
  obtain ⟨y, hy, hr⟩ := vector_read_valid _ hv2 i h0 hi
  simp only [List.getElem?_set_self hb, Option.some.injEq] at hy
  rw [hr, hy]

theorem heap_copy_valid {T : Type} (h : Heap T) (a : vector_object) (va : vector T)
    (ha : a.deref h = .ok va) (hva : va.valid) (fresh : Nat → T) :
    heap_copy h a fresh = .ok (⟨va.my_size, h.length⟩, h ++ [va.data]) := by
  simp only [heap_copy, ha, vector_copy_valid va hva fresh]


theorem heap_add_valid {T : Type} [Add T] (h : Heap T) (a b : vector_object)
    (va vb : vector T) (ha : a.deref h = .ok va) (hb : b.deref h = .ok vb)
    (hva : va.valid) (hvb : vb.valid) (hab : va.my_size = vb.my_size) (fresh : Nat → T) :
    ∃ vs : vector T, heap_add h a b fresh = .ok (⟨va.my_size, h.length⟩, h ++ [vs.data]) ∧
      vs.valid ∧ vs.my_size = va.my_size ∧
      ∀ i : Int, 0 ≤ i → i < va.my_size →
        ∃ x y, va.operator_index_const i = .ok x ∧ vb.operator_index_const i = .ok y ∧
          vs.operator_index_const i = .ok (x + y) := by
  obtain ⟨vs, hs, hsv, hsn, hel⟩ := vector_add_valid va vb hva hvb hab fresh
  refine ⟨vs, ?_, hsv, hsn, ?_⟩
  · simp only [heap_add, ha, hb, hs, hsn]
  · intro i h0 hi
    obtain ⟨x, y, hx, hy, hxy⟩ := hel i.toNat (by omega)
    obtain ⟨x1, hx1, hrx⟩ := vector_read_valid va hva i h0 hi
    obtain ⟨y1, hy1, hry⟩ := vector_read_valid vb hvb i h0 (by omega)
    obtain ⟨z1, hz1, hrz⟩ := vector_read_valid vs hsv i h0 (by omega)
    rw [hx] at hx1
    rw [hy] at hy1
    rw [hxy] at hz1
    injection hx1 with hx1
    injection hy1 with hy1
    injection hz1 with hz1
    exact ⟨x, y, by rw [hrx, hx1], by rw [hry, hy1], by rw [hrz, hz1]⟩

/-! ## Claims on the generic container -/

/-- Claim C6: element-wise addition. For two `vector<T>` objects `a` and `b` of equal
size `n` whose buffers have `n` cells, `a + b` returns an object of size `n` with a buffer
of its own, element `i` of the result is `a[i] + b[i]` for every `i` with `0 <= i < n`,
and `a` and `b` stand for the same containers after the addition as before it. -/
theorem C6_elementwise_addition {T : Type} [Add T] (h : Heap T) (a b : vector_object)
    (va vb : vector T) (ha : a.deref h = .ok va) (hb : b.deref h = .ok vb)
    (hva : va.valid) (hvb : vb.valid) (hab : va.size = vb.size) (fresh : Nat → T) :
    ∃ s h1 vs, heap_add h a b fresh = .ok (s, h1) ∧ s.deref h1 = .ok vs ∧
      vs.size = va.size ∧ vs.valid ∧
      (∀ i : Int, 0 ≤ i → i < va.size →
        ∃ x y, heap_read h a i = .ok x ∧ heap_read h b i = .ok y ∧
          heap_read h1 s i = .ok (x + y)) ∧
      a.deref h1 = .ok va ∧ b.deref h1 = .ok vb := by
  obtain ⟨vs, hs, hsv, hsn, hel⟩ := heap_add_valid h a b va vb ha hb hva hvb hab fresh
  have hd : (vector_object.mk va.my_size h.length).deref (h ++ [vs.data]) = .ok vs := by
    rw [deref_new, ← hsn]
  refine ⟨_, _, vs, hs, hd, hsn, hsv, ?_, deref_append a h va ha _, deref_append b h vb hb _⟩
  intro i h0 hi
  obtain ⟨x, y, hx, hy, hxy⟩ := hel i h0 hi
  exact ⟨x, y, by rw [heap_read_eq h a va ha, hx], by rw [heap_read_eq h b vb hb, hy],
    by rw [heap_read_eq _ _ vs hd, hxy]⟩

theorem C6_elementwise_addition_witness :
    ((vector_object.mk 4 0).deref [[1, 1, 2, -3], [10, 20, 30, 40]]
        = .ok (vector.mk 4 [(1 : Int), 1, 2, -3]) ∧
      (vector_object.mk 4 1).deref [[1, 1, 2, -3], [10, 20, 30, 40]]
        = .ok (vector.mk 4 [(10 : Int), 20, 30, 40]) ∧
      (vector.mk 4 [(1 : Int), 1, 2, -3]).valid ∧
      (vector.mk 4 [(10 : Int), 20, 30, 40]).valid ∧
      (vector.mk 4 [(1 : Int), 1, 2, -3]).size = (vector.mk 4 [(10 : Int), 20, 30, 40]).size) ∧
    ∃ s h1 vs, heap_add [[1, 1, 2, -3], [10, 20, 30, 40]] (vector_object.mk 4 0)
        (vector_object.mk 4 1) (fun _ => 0) = .ok (s, h1) ∧ s.deref h1 = .ok vs ∧
      vs.size = (vector.mk 4 [(1 : Int), 1, 2, -3]).size ∧ vs.valid ∧
      (∀ i : Int, 0 ≤ i → i < (vector.mk 4 [(1 : Int), 1, 2, -3]).size →
        ∃ x y, heap_read [[1, 1, 2, -3], [10, 20, 30, 40]] (vector_object.mk 4 0) i = .ok x ∧
          heap_read [[1, 1, 2, -3], [10, 20, 30, 40]] (vector_object.mk 4 1) i = .ok y ∧
          heap_read h1 s i = .ok (x + y)) ∧
      (vector_object.mk 4 0).deref h1 = .ok (vector.mk 4 [(1 : Int), 1, 2, -3]) ∧
      (vector_object.mk 4 1).deref h1 = .ok (vector.mk 4 [(10 : Int), 20, 30, 40]) :=
  ⟨⟨rfl, rfl, by decide, by decide, rfl⟩,
    C6_elementwise_addition [[1, 1, 2, -3], [10, 20, 30, 40]] (vector_object.mk 4 0)
      (vector_object.mk 4 1) (vector.mk 4 [1, 1, 2, -3]) (vector.mk 4 [10, 20, 30, 40])
      rfl rfl (by decide) (by decide) rfl (fun _ => 0)⟩

/-- Claim C7: a size mismatch is fatal. For every pair of `vector<T>` containers `a`
and `b`, whatever their buffers hold, the assignment `a = b` and the addition `a + b` end
in the failed `assert` of the size check exactly when `a.size() != b.size()`; the result
is then the fault alone: no new state of `a` and no sum container come out of them. -/
theorem C7_size_mismatch_is_fatal {T : Type} [Add T] (a b : vector T) (fresh : Nat → T) :
    (a.operator_assign b = .error .assert_failed ↔ a.size ≠ b.size) ∧
    (a.operator_add b fresh = .error .assert_failed ↔ a.size ≠ b.size) ∧
    (a.size ≠ b.size →
      (¬ ∃ r, a.operator_assign b = .ok r) ∧ (¬ ∃ s, a.operator_add b fresh = .ok s)) := by
  refine ⟨vector_assign_assert_iff a b, vector_add_assert_iff a b fresh, ?_⟩
  intro hne
  have h1 := (vector_assign_assert_iff a b).mpr hne
  have h2 := (vector_add_assert_iff a b fresh).mpr hne
  constructor
  · rintro ⟨r, hr⟩; rw [h1] at hr; cases hr
  · rintro ⟨s, hs⟩; rw [h2] at hs; cases hs

theorem C7_size_mismatch_is_fatal_witness :
    ((vector.mk 4 [(1 : Int), 1, 2, -3]).operator_assign (vector.mk 2 [5, 6])
        = .error .assert_failed) ∧
    ((vector.mk 4 [(1 : Int), 1, 2, -3]).operator_add (vector.mk 2 [5, 6]) (fun _ => 0)
        = .error .assert_failed) ∧
    ((vector.mk 2 [(7 : Int), 8]).operator_assign (vector.mk 2 [5, 6])
        ≠ .error .assert_failed) :=
  ⟨(C7_size_mismatch_is_fatal (vector.mk 4 [(1 : Int), 1, 2, -3]) (vector.mk 2 [5, 6])
      (fun _ => 0)).1.mpr (by decide),
   (C7_size_mismatch_is_fatal (vector.mk 4 [(1 : Int), 1, 2, -3]) (vector.mk 2 [5, 6])
      (fun _ => 0)).2.1.mpr (by decide),
   fun hc => (C7_size_mismatch_is_fatal (vector.mk 2 [(7 : Int), 8]) (vector.mk 2 [5, 6])
      (fun _ => 0)).1.mp hc rfl⟩


/-- Claim C8: assignment copies every element. For two `vector<T>` objects `a` and `b`
of equal size `n` whose buffers have `n` cells, `a = b` returns, `a` still has size `n`
and the buffer it had, `a[i] == b[i]` for every `i` with `0 <= i < n` afterwards, and `b`
stands for the same container as before (also when `a` and `b` are one object). -/
theorem C8_assignment_copies {T : Type} (h : Heap T) (a b : vector_object)
    (va vb : vector T) (ha : a.deref h = .ok va) (hb : b.deref h = .ok vb)
    (hva : va.valid) (hvb : vb.valid) (hab : va.size = vb.size) :
    ∃ (h1 : Heap T) (va1 : vector T), heap_assign h a b = .ok h1 ∧
      a.deref h1 = .ok va1 ∧ va1.size = va.size ∧ va1.valid ∧ h1.length = h.length ∧
      (∀ i : Int, 0 ≤ i → i < vb.size →
        ∃ x, heap_read h b i = .ok x ∧ heap_read h1 b i = .ok x ∧ heap_read h1 a i = .ok x) ∧
      b.deref h1 = .ok vb := by
  have hab2 : va.my_size = vb.my_size := hab
  have hlen : va.data.length = vb.data.length := by
    obtain ⟨_, h1⟩ := hva
    obtain ⟨_, h2⟩ := hvb
    omega
  have hassign := vector_assign_valid va vb hvb hlen hab2
  have ham : va.my_size = a.my_size := ((deref_ok_iff a h va).mp ha).2
  have hbm : vb.my_size = b.my_size := ((deref_ok_iff b h vb).mp hb).2
  have hda : a.deref (h.set a.data vb.data) = .ok vb := by
    rw [deref_set_self a h va ha, ← ham, hab2]
  have hdb : b.deref (h.set a.data vb.data) = .ok vb := by
    by_cases hp : a.data = b.data
    · rw [hp, deref_set_self b h vb hb, ← hbm]
    · exact deref_set_other b a h vb hb hp _
  refine ⟨h.set a.data vb.data, vb, ?_, hda, hab2.symm, hvb, List.length_set _ _ _, ?_, hdb⟩
  · simp only [heap_assign, ha, hb, hassign]
  · intro i h0 hi
    obtain ⟨x, _, hx⟩ := vector_read_valid vb hvb i h0 hi
    exact ⟨x, by rw [heap_read_eq h b vb hb, hx], by rw [heap_read_eq _ b vb hdb, hx],
      by rw [heap_read_eq _ a vb hda, hx]⟩

theorem C8_assignment_copies_witness :
    ((vector_object.mk 4 0).deref [[0, 0, 0, 0], [1, 1, 2, -3]]
        = .ok (vector.mk 4 [(0 : Int), 0, 0, 0]) ∧
      (vector_object.mk 4 1).deref [[0, 0, 0, 0], [1, 1, 2, -3]]
        = .ok (vector.mk 4 [(1 : Int), 1, 2, -3]) ∧
      (vector.mk 4 [(0 : Int), 0, 0, 0]).valid ∧ (vector.mk 4 [(1 : Int), 1, 2, -3]).valid ∧
      (vector.mk 4 [(0 : Int), 0, 0, 0]).size = (vector.mk 4 [(1 : Int), 1, 2, -3]).size) ∧
    ∃ (h1 : Heap Int) (va1 : vector Int),
      heap_assign [[0, 0, 0, 0], [1, 1, 2, -3]] (vector_object.mk 4 0) (vector_object.mk 4 1)
        = .ok h1 ∧
      (vector_object.mk 4 0).deref h1 = .ok va1 ∧
      va1.size = (vector.mk 4 [(0 : Int), 0, 0, 0]).size ∧ va1.valid ∧
      h1.length = [[(0 : Int), 0, 0, 0], [1, 1, 2, -3]].length ∧
      (∀ i : Int, 0 ≤ i → i < (vector.mk 4 [(1 : Int), 1, 2, -3]).size →
        ∃ x, heap_read [[0, 0, 0, 0], [1, 1, 2, -3]] (vector_object.mk 4 1) i = .ok x ∧
          heap_read h1 (vector_object.mk 4 1) i = .ok x ∧
          heap_read h1 (vector_object.mk 4 0) i = .ok x) ∧
      (vector_object.mk 4 1).deref h1 = .ok (vector.mk 4 [(1 : Int), 1, 2, -3]) :=
  ⟨⟨rfl, rfl, by decide, by decide, rfl⟩,
    C8_assignment_copies [[0, 0, 0, 0], [1, 1, 2, -3]] (vector_object.mk 4 0)
      (vector_object.mk 4 1) (vector.mk 4 [0, 0, 0, 0]) (vector.mk 4 [1, 1, 2, -3])
      rfl rfl (by decide) (by decide) rfl⟩

/-- Claim C9: copy-construction copies every element. For a `vector<T>` object `a` of
size `n` whose buffer has `n` cells, whatever the fresh array holds, the copy constructor
returns an object `c` with `c.size() == n` and a buffer of its own, a new array of the
heap; `a` stands for the same container after the copy as before it; and for every `i`
with `0 <= i < n` the element `c[i]` after the copy is the element `a[i]` had before the
copy, which is also the element `a[i]` has after it. -/
theorem C9_copy_construction_copies {T : Type} (h : Heap T) (a : vector_object)
    (va : vector T) (ha : a.deref h = .ok va) (hva : va.valid) (fresh : Nat → T) :
    ∃ (c : vector_object) (h1 : Heap T) (vc : vector T),
      heap_copy h a fresh = .ok (c, h1) ∧ c.deref h1 = .ok vc ∧ vc.size = va.size ∧
      vc.valid ∧
      (∀ i : Int, 0 ≤ i → i < va.size →
        ∃ x, heap_read h1 a i = .ok x ∧ heap_read h1 c i = .ok x) ∧
      (∀ i : Int, 0 ≤ i → i < va.size →
        ∃ x, heap_read h a i = .ok x ∧ va.operator_index_const i = .ok x ∧
          heap_read h1 c i = .ok x) ∧
      vc.data = va.data ∧ a.deref h1 = .ok va ∧
      c.data = h.length ∧ c.data ≠ a.data ∧ h1.length = h.length + 1 ∧
      (∀ p : Nat, p < h.length → h1[p]? = h[p]?) := by
  have hlt := deref_lt a h va ha
  have hda := deref_append a h va ha va.data
  have hdc := deref_new h va.my_size va.data
  refine ⟨_, _, va, heap_copy_valid h a va ha hva fresh, hdc, rfl, hva, ?_, ?_, rfl, hda,
    rfl, ?_, ?_, ?_⟩
  · intro i h0 hi
    obtain ⟨x, _, hx⟩ := vector_read_valid va hva i h0 hi
    exact ⟨x, by rw [heap_read_eq _ a va hda, hx], by rw [heap_read_eq _ _ va hdc, hx]⟩
  · intro i h0 hi
    obtain ⟨x, _, hx⟩ := vector_read_valid va hva i h0 hi
    exact ⟨x, by rw [heap_read_eq h a va ha, hx], hx, by rw [heap_read_eq _ _ va hdc, hx]⟩
  · simp only [ne_eq]; omega
  · simp only [List.length_append, List.length_singleton]
  · intro p hp
    exact List.getElem?_append_left hp

theorem C9_copy_construction_copies_witness :
    ((vector_object.mk 4 0).deref [[1, 1, 2, -3]] = .ok (vector.mk 4 [(1 : Int), 1, 2, -3]) ∧
      (vector.mk 4 [(1 : Int), 1, 2, -3]).valid) ∧
    ∃ (c : vector_object) (h1 : Heap Int) (vc : vector Int),
      heap_copy [[1, 1, 2, -3]] (vector_object.mk 4 0) (fun _ => 7) = .ok (c, h1) ∧
      c.deref h1 = .ok vc ∧ vc.size = (vector.mk 4 [(1 : Int), 1, 2, -3]).size ∧ vc.valid ∧
      (∀ i : Int, 0 ≤ i → i < (vector.mk 4 [(1 : Int), 1, 2, -3]).size →
        ∃ x, heap_read h1 (vector_object.mk 4 0) i = .ok x ∧ heap_read h1 c i = .ok x) ∧
      (∀ i : Int, 0 ≤ i → i < (vector.mk 4 [(1 : Int), 1, 2, -3]).size →
        ∃ x, heap_read [[1, 1, 2, -3]] (vector_object.mk 4 0) i = .ok x ∧
          (vector.mk 4 [(1 : Int), 1, 2, -3]).operator_index_const i = .ok x ∧
          heap_read h1 c i = .ok x) ∧
      vc.data = (vector.mk 4 [(1 : Int), 1, 2, -3]).data ∧
      (vector_object.mk 4 0).deref h1 = .ok (vector.mk 4 [(1 : Int), 1, 2, -3]) ∧
      c.data = [[(1 : Int), 1, 2, -3]].length ∧ c.data ≠ (vector_object.mk 4 0).data ∧
      h1.length = [[(1 : Int), 1, 2, -3]].length + 1 ∧
      (∀ p : Nat, p < [[(1 : Int), 1, 2, -3]].length → h1[p]? = [[(1 : Int), 1, 2, -3]][p]?) :=
  ⟨⟨rfl, by decide⟩,
    C9_copy_construction_copies [[1, 1, 2, -3]] (vector_object.mk 4 0)
      (vector.mk 4 [1, 1, 2, -3]) rfl (by decide) (fun _ => 7)⟩


theorem heap_store_valid {T : Type} (h : Heap T) (o : vector_object) (v : vector T)
    (hd : o.deref h = .ok v) (hv : v.valid) (i : Int) (h0 : 0 ≤ i) (hi : i < v.my_size)
    (x : T) : heap_store h o i x = .ok (h.set o.data (v.data.set i.toNat x)) := by
  simp only [heap_store, hd, vector_store_valid v hv i h0 hi x]

/-- Claim C10: a copy-constructed container is independent of its source. Let `c` be
the copy of a `vector<T>` object `a` whose buffer has `size()` cells. For all valid indices
`i` and `j` and every value `x`: the statement `c[i] = x` returns, `c[i]` then reads `x`,
and `a` stands for the same container after it as before, so `a[j]` is unchanged; and the
statement `a[i] = x` returns, `a[i]` then reads `x`, and `c` stands for the same container
after it as before, so `c[j]` is unchanged. -/
theorem C10_copy_is_independent {T : Type} (h : Heap T) (a : vector_object) (va : vector T)
    (ha : a.deref h = .ok va) (hva : va.valid) (fresh : Nat → T) (i j : Int) (x : T)
    (hi0 : 0 ≤ i) (hi : i < va.size) (hj0 : 0 ≤ j) (hj : j < va.size) :
    ∃ (c : vector_object) (h1 : Heap T), heap_copy h a fresh = .ok (c, h1) ∧
      c.data ≠ a.data ∧
      (∃ (h2 : Heap T) (y : T), heap_store h1 c i x = .ok h2 ∧
        heap_read h2 c i = .ok x ∧
        heap_read h1 a j = .ok y ∧ heap_read h2 a j = .ok y ∧ a.deref h2 = a.deref h1) ∧
      (∃ (h3 : Heap T) (y : T), heap_store h1 a i x = .ok h3 ∧
        heap_read h3 a i = .ok x ∧
        heap_read h1 c j = .ok y ∧ heap_read h3 c j = .ok y ∧ c.deref h3 = c.deref h1) := by
  have hlt := deref_lt a h va ha
  have ham : va.my_size = a.my_size := ((deref_ok_iff a h va).mp ha).2
  have hne : (vector_object.mk va.my_size h.length).data ≠ a.data := by
    simp only [ne_eq]; omega
  have hda := deref_append a h va ha va.data
  have hdc := deref_new h va.my_size va.data
  obtain ⟨y, _, hy⟩ := vector_read_valid va hva j hj0 hj
  refine ⟨_, _, heap_copy_valid h a va ha hva fresh, hne, ?_, ?_⟩
  · have hda2 := deref_set_other a (vector_object.mk va.my_size h.length) _ va hda hne
      (va.data.set i.toNat x)
    have hdc2 := deref_set_self (vector_object.mk va.my_size h.length) _ _ hdc
      (va.data.set i.toNat x)
    refine ⟨_, y, heap_store_valid _ _ va hdc hva i hi0 hi x, ?_, ?_, ?_, ?_⟩
    · rw [heap_read_eq _ _ _ hdc2]
      exact vector_store_read_same va hva i hi0 hi x
    · rw [heap_read_eq _ a va hda, hy]
    · rw [heap_read_eq _ a va hda2, hy]
    · rw [hda2, hda]
  · have hdc3 := deref_set_other (vector_object.mk va.my_size h.length) a _ _ hdc
      (fun e => hne e.symm) (va.data.set i.toNat x)
    have hda3 := deref_set_self a _ va hda (va.data.set i.toNat x)
    refine ⟨_, y, heap_store_valid _ a va hda hva i hi0 hi x, ?_, ?_, ?_, ?_⟩
    · rw [heap_read_eq _ _ _ hda3, ← ham]
      exact vector_store_read_same va hva i hi0 hi x
    · rw [heap_read_eq _ _ va hdc, hy]
    · rw [heap_read_eq _ _ va hdc3, hy]
    · rw [hdc3, hdc]

theorem C10_copy_is_independent_witness :
    ((vector_object.mk 4 0).deref [[1, 1, 2, -3]] = .ok (vector.mk 4 [(1 : Int), 1, 2, -3]) ∧
      (vector.mk 4 [(1 : Int), 1, 2, -3]).valid ∧ (0 : Int) ≤ 2 ∧
      (2 : Int) < (vector.mk 4 [(1 : Int), 1, 2, -3]).size ∧ (0 : Int) ≤ 2 ∧
      (2 : Int) < (vector.mk 4 [(1 : Int), 1, 2, -3]).size) ∧
    ∃ (c : vector_object) (h1 : Heap Int),
      heap_copy [[1, 1, 2, -3]] (vector_object.mk 4 0) (fun _ => 0) = .ok (c, h1) ∧
      c.data ≠ (vector_object.mk 4 0).data ∧
      (∃ (h2 : Heap Int) (y : Int), heap_store h1 c 2 9 = .ok h2 ∧
        heap_read h2 c 2 = .ok 9 ∧
        heap_read h1 (vector_object.mk 4 0) 2 = .ok y ∧
        heap_read h2 (vector_object.mk 4 0) 2 = .ok y ∧
        (vector_object.mk 4 0).deref h2 = (vector_object.mk 4 0).deref h1) ∧
      (∃ (h3 : Heap Int) (y : Int), heap_store h1 (vector_object.mk 4 0) 2 9 = .ok h3 ∧
        heap_read h3 (vector_object.mk 4 0) 2 = .ok 9 ∧
        heap_read h1 c 2 = .ok y ∧ heap_read h3 c 2 = .ok y ∧ c.deref h3 = c.deref h1) :=
  ⟨⟨rfl, by decide, by decide, by decide, by decide, by decide⟩,
    C10_copy_is_independent [[1, 1, 2, -3]] (vector_object.mk 4 0)
      (vector.mk 4 [1, 1, 2, -3]) rfl (by decide) (fun _ => 0) 2 2 9 (by decide) (by decide)
      (by decide) (by decide)⟩


/-! ## Stream rendering -/

theorem string_join_cons (a : String) (l : List String) :
    String.join (a :: l) = a ++ String.join l := by
  rw [String.join_eq, String.join_eq]
  rfl

theorem shift_loop_spec {T : Type} (print : T → String) (v : vector T) (hv : v.valid)
    (fuel : Nat) : ∀ (i : Int) (os : ostream), 0 ≤ i → i ≤ v.my_size →
      (v.my_size - i).toNat < fuel →
      shift_loop print v fuel i os
        = .ok (os ++ String.join ((v.data.drop i.toNat).map (fun x => print x ++ ","))) := by
  induction fuel with
  | zero => intro _ _ _ _ hf; omega
  | succ fuel ih =>
    intro i os h0 hin hf
    by_cases hi : i < v.my_size
    · have hb : i.toNat < v.data.length := by
        obtain ⟨_, hl⟩ := hv; omega
      obtain ⟨x, hx, hr⟩ := vector_read_valid v hv i h0 hi
      rw [List.getElem?_eq_getElem hb] at hx
      injection hx with hx
      have hnext := ih (i + 1) (os ++ print x ++ ",") (by omega) (by omega) (by omega)
      have e : (i + 1).toNat = i.toNat + 1 := by omega
      simp only [shift_loop, vector.size, hi, if_true, hr, hnext, e]
      rw [List.drop_eq_getElem_cons hb, List.map_cons, string_join_cons, hx]
      simp only [String.append_assoc]
    · have hlen : v.data.length ≤ i.toNat := by
        obtain ⟨_, hl⟩ := hv; omega
      simp only [shift_loop, vector.size, hi, if_false, List.drop_eq_nil_of_le hlen,
        List.map_nil]
      have : String.join [] = "" := rfl
      rw [this, String.append_empty]

theorem operator_shift_valid {T : Type} (print : T → String) (os : ostream) (v : vector T)
    (hv : v.valid) :
    operator_shift print os v
      = .ok (os ++ "[" ++ String.join (v.data.map (fun x => print x ++ ",")) ++ "]") := by
  have h := shift_loop_spec print v hv (v.my_size.toNat + 1) 0 (os ++ "[") (by omega) hv.1
    (by omega)
  simp only [operator_shift, vector.size, h, Int.toNat_zero, List.drop_zero]

theorem reads_eq_data {T : Type} (v : vector T) (hv : v.valid) :
    (List.range v.my_size.toNat).map (fun k : Nat => v.operator_index_const (k : Int))
      = v.data.map Except.ok := by
  have hl : v.my_size.toNat = v.data.length := by
    obtain ⟨_, hl⟩ := hv; omega
  apply List.ext_getElem
  · simp only [List.length_map, List.length_range, hl]
  · intro k h1 h2
    simp only [List.length_map, List.length_range] at h1 h2
    simp only [List.getElem_map, List.getElem_range]
    obtain ⟨x, hx, hr⟩ := vector_read_valid v hv (k : Int) (by omega) (by omega)
    rw [hr]
    simp only [Int.toNat_ofNat, List.getElem?_eq_getElem h2, Option.some.injEq] at hx
    rw [hx]

/-- Claim C11: stream rendering. For every `vector<T>` whose buffer has `size()` cells
and every printed form `print` of the element type, `operator<<` returns, and the text it
appends to the stream is `[`, then for every element in increasing index order its printed
form followed by `,` (the last element included), then `]`. The elements in index order
are the values `v[0]`, ..., `v[n-1]` read by the const `operator[]`. With the decimal
printed form the elements 1, 2, 3 render as `[1,2,3,]`, and the empty container renders as
`[]`. -/
theorem C11_stream_rendering {T : Type} (print : T → String) (os : ostream) (v : vector T)
    (hv : v.valid) :
    operator_shift print os v
        = .ok (os ++ "[" ++ String.join (v.data.map (fun x => print x ++ ",")) ++ "]") ∧
      (List.range v.size.toNat).map (fun k : Nat => v.operator_index_const (k : Int))
        = v.data.map Except.ok ∧
      (v.size = 0 → operator_shift print os v = .ok (os ++ "[]")) ∧
      operator_shift (fun x : Int => toString x) "" (vector.mk 3 [1, 2, 3]) = .ok "[1,2,3,]" ∧
      operator_shift print "" (vector.mk 0 []) = .ok "[]" := by
  refine ⟨operator_shift_valid print os v hv, reads_eq_data v hv, ?_, rfl, rfl⟩
  intro h0
  have hnil : v.data = [] := by
    obtain ⟨_, hl⟩ := hv
    have h1 : v.my_size = 0 := h0
    apply List.eq_nil_of_length_eq_zero
    omega
  rw [operator_shift_valid print os v hv, hnil]
  have : String.join (List.map (fun x => print x ++ ",") ([] : List T)) = "" := rfl
  rw [this, String.append_empty, String.append_assoc]
  rfl

theorem C11_stream_rendering_witness :
    (vector.mk 4 [(1 : Int), 1, 2, -3]).valid ∧
      operator_shift (fun x : Int => toString x) "v = " (vector.mk 4 [1, 1, 2, -3])
        = .ok "v = [1,1,2,-3,]" :=
  ⟨by decide,
    (C11_stream_rendering (fun x : Int => toString x) "v = " (vector.mk 4 [1, 1, 2, -3])
      (by decide)).1⟩


/-! ## Claims on the layout of the bits -/

/-- Claim C12: bit layout. For every `vector<bool>` with the buffer of its constructor,
whatever it holds, and every index `i` with `0 <= i < size()`, the const `operator[]`
returns `((data[i/8] >> (i % 8)) & 1) != 0`, which is true exactly when bit `i % 8`,
counted from the least significant bit, of the byte at position `i / 8` is set. -/
theorem C12_bit_layout (v : vector_bool) (hv : v.valid) (i : Int) (h0 : 0 ≤ i)
    (hi : i < v.size) :
    ∃ byte : uint8_t, v.data[(i / 8).toNat]? = some byte ∧
      v.operator_index_const i = .ok (((byte.val >>> (i % 8).toNat) &&& 1) != 0) ∧
      ((((byte.val >>> (i % 8).toNat) &&& 1) != 0) = byte.val.testBit (i % 8).toNat) ∧
      (byte.val.testBit (i % 8).toNat = decide (byte.val / 2 ^ (i % 8).toNat % 2 = 1)) := by
  obtain ⟨byte, hb, hr⟩ := read_valid v hv i h0 hi
  have e1 : (i / 8).toNat = i.toNat / 8 := by omega
  have e2 : (i % 8).toNat = i.toNat % 8 := by omega
  refine ⟨byte, by rw [e1]; exact hb, ?_, read_bit_eq_testBit _ _, Nat.testBit_to_div_mod⟩
  rw [hr, e2, read_bit_eq_testBit]

theorem C12_bit_layout_witness :
    (vector_bool.mk 13 [170, 4]).valid ∧ (0 : Int) ≤ 10 ∧
      (10 : Int) < (vector_bool.mk 13 [170, 4]).size ∧
      ∃ byte : uint8_t, (vector_bool.mk 13 [170, 4]).data[((10 : Int) / 8).toNat]? = some byte ∧
        (vector_bool.mk 13 [170, 4]).operator_index_const 10
          = .ok (((byte.val >>> ((10 : Int) % 8).toNat) &&& 1) != 0) ∧
        ((((byte.val >>> ((10 : Int) % 8).toNat) &&& 1) != 0)
          = byte.val.testBit ((10 : Int) % 8).toNat) ∧
        (byte.val.testBit ((10 : Int) % 8).toNat
          = decide (byte.val / 2 ^ ((10 : Int) % 8).toNat % 2 = 1)) :=
  ⟨by decide, by decide, by decide,
    C12_bit_layout (vector_bool.mk 13 [170, 4]) (by decide) 10 (by decide) (by decide)⟩

/-- Claim C13: proxy invariant. For every `vector<bool>` with the buffer of its
constructor and every index `i` with `0 <= i < size()`, the mutable `operator[]` returns a
`bool_reference` bound to the byte at position `i / 8`, a byte of the buffer, whose mask is
`1 << (i % 8)` as an 8-bit value, that is `2 ^ (i % 8)`: bit `i % 8` of the mask is set
and no other. -/
theorem C13_proxy_invariant (v : vector_bool) (hv : v.valid) (i : Int) (h0 : 0 ≤ i)
    (hi : i < v.size) :
    ∃ r : bool_reference, v.operator_index i = .ok r ∧
      r.byte = (i / 8).toNat ∧ r.byte < v.data.length ∧
      r.mask = to_uint8 (1 <<< (i % 8).toNat) ∧ r.mask.val = 2 ^ (i % 8).toNat ∧
      ∀ j : Nat, r.mask.val.testBit j = decide (j = (i % 8).toNat) := by
  have e1 : (i / 8).toNat = i.toNat / 8 := by omega
  have e2 : (i % 8).toNat = i.toNat % 8 := by omega
  have hk : i.toNat % 8 < 8 := Nat.mod_lt _ (by decide)
  refine ⟨_, operator_index_valid v hv i h0 hi, ?_, ?_, ?_, ?_, ?_⟩
  · rw [e1]
  · exact byte_in_buffer v hv i h0 hi
  · rw [e2]
  · rw [e2]; exact mask_val _ hk
  · intro j
    simp only [mask_val _ hk, Nat.testBit_two_pow, e2]
    by_cases h : i.toNat % 8 = j
    · simp [h]
    · have h2 : ¬ j = i.toNat % 8 := fun e => h e.symm
      simp [h, h2]

theorem C13_proxy_invariant_witness :
    (vector_bool.mk 13 [170, 4]).valid ∧ (0 : Int) ≤ 10 ∧
      (10 : Int) < (vector_bool.mk 13 [170, 4]).size ∧
      ∃ r : bool_reference, (vector_bool.mk 13 [170, 4]).operator_index 10 = .ok r ∧
        r.byte = ((10 : Int) / 8).toNat ∧ r.byte < (vector_bool.mk 13 [170, 4]).data.length ∧
        r.mask = to_uint8 (1 <<< ((10 : Int) % 8).toNat) ∧
        r.mask.val = 2 ^ ((10 : Int) % 8).toNat ∧
        ∀ j : Nat, r.mask.val.testBit j = decide (j = ((10 : Int) % 8).toNat) :=
  ⟨by decide, by decide, by decide,
    C13_proxy_invariant (vector_bool.mk 13 [170, 4]) (by decide) 10 (by decide) (by decide)⟩


/-- Claim C15: the two read paths agree. For every byte `b` and every bit position `k`
in `0..7`, the formula of the const read, `((b >> k) & 1) != 0`, equals the conversion of
the proxy, `(b & mask) != 0` with `mask = 1 << k`; and for every `vector<bool>` with the
buffer of its constructor and every index `i` with `0 <= i < size()`, converting the
`bool_reference` returned by the mutable `operator[](i)` gives the same boolean as the
const `operator[](i)`. -/
theorem C15_read_paths_agree (byte : uint8_t) (k : Nat) (hk : k < 8) (v : vector_bool)
    (hv : v.valid) (i : Int) (h0 : 0 ≤ i) (hi : i < v.size) :
    ((((byte.val >>> k) &&& 1) != 0) = ((byte.val &&& (to_uint8 (1 <<< k)).val) != 0)) ∧
      ∃ (r : bool_reference) (x : Bool), v.operator_index i = .ok r ∧
        r.operator_bool v.data = .ok x ∧ v.load i = .ok x ∧
        v.operator_index_const i = .ok x := by
  constructor
  · rw [read_bit_eq_testBit, mask_val k hk, and_mask_ne_zero]
  · obtain ⟨b1, _, hl⟩ := load_valid v hv i h0 hi
    have hidx := operator_index_valid v hv i h0 hi
    have hlr := load_eq_read v hv i h0 hi
    refine ⟨_, _, hidx, ?_, hl, by rw [← hlr, hl]⟩
    have e : v.load i
        = (bool_reference.mk (i.toNat / 8) (to_uint8 (1 <<< (i.toNat % 8)))).operator_bool
            v.data := by
      simp only [vector_bool.load, hidx]
    rw [← e, hl]

theorem C15_read_paths_agree_witness :
    (5 < 8 ∧ (vector_bool.mk 13 [170, 4]).valid ∧ (0 : Int) ≤ 10 ∧
      (10 : Int) < (vector_bool.mk 13 [170, 4]).size) ∧
    (((((170 : uint8_t).val >>> 5) &&& 1) != 0)
        = (((170 : uint8_t).val &&& (to_uint8 (1 <<< 5)).val) != 0)) ∧
      ∃ (r : bool_reference) (x : Bool),
        (vector_bool.mk 13 [170, 4]).operator_index 10 = .ok r ∧
        r.operator_bool (vector_bool.mk 13 [170, 4]).data = .ok x ∧
        (vector_bool.mk 13 [170, 4]).load 10 = .ok x ∧
        (vector_bool.mk 13 [170, 4]).operator_index_const 10 = .ok x :=
  ⟨⟨by decide, by decide, by decide, by decide⟩,
    C15_read_paths_agree 170 5 (by decide) (vector_bool.mk 13 [170, 4]) (by decide) 10
      (by decide) (by decide)⟩

/-- Claim C16: byte accesses stay inside the buffer. For every `n` with `0 <= n` and
`n + 7 <= INT_MAX` the constructor returns a container whose buffer has `(n + 7) / 8`
bytes; `check_index(i)` passes exactly when `0 <= i < n`, and then the byte position
`i / 8` is below the buffer length and the bit position `i % 8` is in `0..7`, so both
forms of `operator[]` return and neither reaches an access outside the buffer. -/
theorem C16_accesses_stay_inside (n : Int) (hn0 : 0 ≤ n) (hn : n + 7 ≤ INT_MAX)
    (heap : Nat → uint8_t) (i : Int) (h0 : 0 ≤ i) (hi : i < n) :
    ∃ b : vector_bool, vector_bool.new n heap = .ok b ∧
      (b.data.length : Int) = (n + 7) / 8 ∧
      (∀ j : Int, b.check_index j = .ok () ↔ (0 ≤ j ∧ j < n)) ∧
      0 ≤ Int.tdiv i 8 ∧ Int.tdiv i 8 < (b.data.length : Int) ∧
      0 ≤ Int.tmod i 8 ∧ Int.tmod i 8 ≤ 7 ∧
      (∃ x, b.operator_index_const i = .ok x) ∧
      (∃ r, b.operator_index i = .ok r ∧ r.byte < b.data.length) ∧
      b.operator_index_const i ≠ .error .undefined_behaviour ∧
      b.operator_index i ≠ .error .undefined_behaviour := by
  have hnew := new_in_range n hn0 hn heap
  have hv : (vector_bool.mk n ((List.range ((n + 7) / 8).toNat).map heap)).valid :=
    new_ok_valid n hn0 (by unfold INT_MAX at hn ⊢; omega) heap _ hnew
  have hlen := hv.2.2
  obtain ⟨hd, hm⟩ := tdiv_tmod_nonneg i h0
  obtain ⟨byte, _, hr⟩ := read_valid _ hv i h0 hi
  have hidx := operator_index_valid _ hv i h0 hi
  have hb := byte_in_buffer _ hv i h0 hi
  refine ⟨_, hnew, hlen, ?_, ?_, ?_, ?_, ?_, ⟨_, hr⟩, ⟨_, hidx, hb⟩, ?_, ?_⟩
  · intro j
    simp only [vector_bool.check_index]
    by_cases hj : j ≥ 0 ∧ j < n
    · rw [if_pos hj]
      exact ⟨fun _ => hj, fun _ => rfl⟩
    · rw [if_neg hj]
      exact ⟨fun hc => (by cases hc), fun hc => absurd hc hj⟩
  · rw [hd]; omega
  · rw [hd]
    have : (i.toNat / 8 : Nat) < ((List.range ((n + 7) / 8).toNat).map heap).length := hb
    omega
  · rw [hm]; omega
  · rw [hm]; omega
  · rw [hr]; intro hc; cases hc
  · rw [hidx]; intro hc; cases hc

theorem C16_accesses_stay_inside_witness :
    ((0 : Int) ≤ 13 ∧ (13 : Int) + 7 ≤ INT_MAX ∧ (0 : Int) ≤ 12 ∧ (12 : Int) < 13) ∧
    ∃ b : vector_bool, vector_bool.new 13 (fun _ => 255) = .ok b ∧
      (b.data.length : Int) = (13 + 7) / 8 ∧
      (∀ j : Int, b.check_index j = .ok () ↔ (0 ≤ j ∧ j < 13)) ∧
      0 ≤ Int.tdiv 12 8 ∧ Int.tdiv 12 8 < (b.data.length : Int) ∧
      0 ≤ Int.tmod 12 8 ∧ Int.tmod 12 8 ≤ 7 ∧
      (∃ x, b.operator_index_const 12 = .ok x) ∧
      (∃ r, b.operator_index 12 = .ok r ∧ r.byte < b.data.length) ∧
      b.operator_index_const 12 ≠ .error .undefined_behaviour ∧
      b.operator_index 12 ≠ .error .undefined_behaviour :=
  ⟨⟨by decide, by decide, by decide, by decide⟩,
    C16_accesses_stay_inside 13 (by decide) (by decide) (fun _ => 255) 12 (by decide)
      (by decide)⟩


/-! ## The representation invariant of the generic container -/

theorem valid_of_length {T : Type} (v : vector T) (h : (v.data.length : Int) = v.my_size) :
    v.valid := ⟨by omega, h⟩

/-- Claim C14: representation invariant of `vector<T>`: the buffer length equals the
element count. It holds after `vector(size)` for every `size >= 0` and after the default
constructor (count 0); the copy constructor, the assignment between containers of equal
size and a write at a valid index return and keep it; and the addition of containers of
equal size returns a container that has it. -/
theorem C14_representation_invariant {T : Type} [Add T] (n : Int) (heap : Nat → T)
    (a b : vector T) (i : Int) (x : T) :
    (0 ≤ n → ∃ v, vector.new n heap = .ok v ∧ v.size = n ∧ (v.data.length : Int) = v.size) ∧
    (((vector.default : vector T).data.length : Int) = (vector.default : vector T).size ∧
      (vector.default : vector T).size = 0) ∧
    ((a.data.length : Int) = a.size →
      ∃ c, a.copy heap = .ok c ∧ (c.data.length : Int) = c.size) ∧
    ((a.data.length : Int) = a.size → (b.data.length : Int) = b.size → a.size = b.size →
      ∃ r, a.operator_assign b = .ok r ∧ (r.data.length : Int) = r.size) ∧
    ((a.data.length : Int) = a.size → 0 ≤ i → i < a.size →
      ∃ w, a.store i x = .ok w ∧ (w.data.length : Int) = w.size) ∧
    ((a.data.length : Int) = a.size → (b.data.length : Int) = b.size → a.size = b.size →
      ∃ s, a.operator_add b heap = .ok s ∧ (s.data.length : Int) = s.size) := by
  refine ⟨?_, ⟨rfl, rfl⟩, ?_, ?_, ?_, ?_⟩
  · intro hn
    refine ⟨_, vector_new_nonneg n hn heap, rfl, ?_⟩
    simp only [List.length_map, List.length_range, vector.size]
    omega
  · intro ha
    exact ⟨a, vector_copy_valid a (valid_of_length a ha) heap, ha⟩
  · intro ha hb hab
    have hlen : a.data.length = b.data.length := by
      simp only [vector.size] at ha hb hab; omega
    exact ⟨b, vector_assign_valid a b (valid_of_length b hb) hlen hab, hb⟩
  · intro ha h0 hi
    refine ⟨_, vector_store_valid a (valid_of_length a ha) i h0 hi x, ?_⟩
    simp only [List.length_set, vector.size]
    exact ha
  · intro ha hb hab
    obtain ⟨s, hs, hsv, _⟩ :=
      vector_add_valid a b (valid_of_length a ha) (valid_of_length b hb) hab heap
    exact ⟨s, hs, hsv.2⟩

theorem C14_representation_invariant_witness :
    (∃ v, vector.new 4 (fun _ => (0 : Int)) = .ok v ∧ v.size = 4 ∧
      (v.data.length : Int) = v.size) ∧
    (∃ c, (vector.mk 4 [(1 : Int), 1, 2, -3]).copy (fun _ => 0) = .ok c ∧
      (c.data.length : Int) = c.size) ∧
    (∃ r, (vector.mk 4 [(0 : Int), 0, 0, 0]).operator_assign (vector.mk 4 [1, 1, 2, -3])
        = .ok r ∧ (r.data.length : Int) = r.size) ∧
    (∃ w, (vector.mk 4 [(1 : Int), 1, 2, -3]).store 3 5 = .ok w ∧
      (w.data.length : Int) = w.size) ∧
    (∃ s, (vector.mk 4 [(1 : Int), 1, 2, -3]).operator_add (vector.mk 4 [1, 1, 2, -3])
        (fun _ => 0) = .ok s ∧ (s.data.length : Int) = s.size) :=
  ⟨(@C14_representation_invariant Int _ 4 (fun _ => 0) (vector.mk 4 [1, 1, 2, -3])
      (vector.mk 4 [1, 1, 2, -3]) 3 5).1 (by decide),
   (@C14_representation_invariant Int _ 4 (fun _ => 0) (vector.mk 4 [1, 1, 2, -3])
      (vector.mk 4 [1, 1, 2, -3]) 3 5).2.2.1 (by decide),
   (@C14_representation_invariant Int _ 4 (fun _ => 0) (vector.mk 4 [0, 0, 0, 0])
      (vector.mk 4 [1, 1, 2, -3]) 3 5).2.2.2.1 (by decide) (by decide) (by decide),
   (@C14_representation_invariant Int _ 4 (fun _ => 0) (vector.mk 4 [1, 1, 2, -3])
      (vector.mk 4 [1, 1, 2, -3]) 3 5).2.2.2.2.1 (by decide) (by decide) (by decide),
   (@C14_representation_invariant Int _ 4 (fun _ => 0) (vector.mk 4 [1, 1, 2, -3])
      (vector.mk 4 [1, 1, 2, -3]) 3 5).2.2.2.2.2 (by decide) (by decide) (by decide)⟩


/-! ## Writes to the bit-packed container -/

theorem testBit_uint8_high (byte : uint8_t) (j : Nat) (hj : 8 ≤ j) :
    byte.val.testBit j = false := by
  apply Nat.testBit_lt_two_pow
  calc byte.val < 256 := byte.isLt
    _ = 2 ^ 8 := by norm_num
    _ ≤ 2 ^ j := Nat.pow_le_pow_right (by decide) hj

theorem testBit_after_put_all (byte : uint8_t) (k j : Nat) (hk : k < 8) (x : Bool) :
    (if x = true then to_uint8 (byte.val ||| 2 ^ k)
      else to_uint8 (byte.val &&& int_complement (2 ^ k))).val.testBit j
      = if k = j then x else byte.val.testBit j := by
  by_cases hj : j < 8
  · exact testBit_after_put byte k j hk hj x
  · have hne : k ≠ j := by omega
    rw [if_neg hne, testBit_uint8_high byte j (by omega), testBit_uint8_high _ j (by omega)]

theorem uint8_ext (a b : uint8_t) (h : ∀ j, a.val.testBit j = b.val.testBit j) : a = b :=
  Fin.ext (Nat.eq_of_testBit_eq h)

theorem put_put_same (byte : uint8_t) (k : Nat) (hk : k < 8) (x y : Bool) :
    (if y = true then
        to_uint8 ((if x = true then to_uint8 (byte.val ||| 2 ^ k)
          else to_uint8 (byte.val &&& int_complement (2 ^ k))).val ||| 2 ^ k)
      else
        to_uint8 ((if x = true then to_uint8 (byte.val ||| 2 ^ k)
          else to_uint8 (byte.val &&& int_complement (2 ^ k))).val
            &&& int_complement (2 ^ k)))
      = (if y = true then to_uint8 (byte.val ||| 2 ^ k)
          else to_uint8 (byte.val &&& int_complement (2 ^ k))) := by
  apply uint8_ext
  intro j
  rw [testBit_after_put_all _ k j hk y, testBit_after_put_all byte k j hk y,
    testBit_after_put_all byte k j hk x]
  by_cases h : k = j <;> simp [h]

theorem put_put_comm (byte : uint8_t) (k m : Nat) (hk : k < 8) (hm : m < 8) (hkm : k ≠ m)
    (x y : Bool) :
    (if y = true then
        to_uint8 ((if x = true then to_uint8 (byte.val ||| 2 ^ k)
          else to_uint8 (byte.val &&& int_complement (2 ^ k))).val ||| 2 ^ m)
      else
        to_uint8 ((if x = true then to_uint8 (byte.val ||| 2 ^ k)
          else to_uint8 (byte.val &&& int_complement (2 ^ k))).val
            &&& int_complement (2 ^ m)))
      = (if x = true then
          to_uint8 ((if y = true then to_uint8 (byte.val ||| 2 ^ m)
            else to_uint8 (byte.val &&& int_complement (2 ^ m))).val ||| 2 ^ k)
        else
          to_uint8 ((if y = true then to_uint8 (byte.val ||| 2 ^ m)
            else to_uint8 (byte.val &&& int_complement (2 ^ m))).val
              &&& int_complement (2 ^ k))) := by
  apply uint8_ext
  intro j
  rw [testBit_after_put_all _ m j hm y, testBit_after_put_all byte k j hk x,
    testBit_after_put_all _ k j hk x, testBit_after_put_all byte m j hm y]
  by_cases h1 : k = j
  · have h2 : m ≠ j := fun e => hkm (h1.trans e.symm)
    simp [h1, h2]
  · simp [h1]


theorem store_store_same (v : vector_bool) (hv : v.valid) (i : Int) (h0 : 0 ≤ i)
    (hi : i < v.my_size) (x y : Bool) :
    ∃ w1 w2, v.store i x = .ok w1 ∧ w1.store i y = .ok w2 ∧ v.store i y = .ok w2 := by
  have hb := byte_in_buffer v hv i h0 hi
  have hk : i.toNat % 8 < 8 := Nat.mod_lt _ (by decide)
  obtain ⟨byte, hbyte, hs1⟩ := store_valid v hv i h0 hi x
  obtain ⟨hw1, hn1⟩ := store_keeps_valid v _ hv i h0 hi x hs1
  obtain ⟨byte1, hbyte1, hs2⟩ := store_valid _ hw1 i h0 (by rw [hn1]; exact hi) y
  obtain ⟨byte3, hbyte3, hs3⟩ := store_valid v hv i h0 hi y
  rw [hbyte] at hbyte3
  injection hbyte3 with hbyte3
  simp only [List.getElem?_set_self hb, Option.some.injEq] at hbyte1
  refine ⟨_, _, hs1, hs2, ?_⟩
  rw [hs3, ← hbyte3, ← hbyte1]
  simp only [List.set_set, put_put_same byte _ hk x y]

theorem store_store_comm (v : vector_bool) (hv : v.valid) (i j : Int) (h0 : 0 ≤ i)
    (hi : i < v.my_size) (hj0 : 0 ≤ j) (hj : j < v.my_size) (hij : i ≠ j) (x y : Bool) :
    ∃ a1 a2 b1, v.store i x = .ok a1 ∧ a1.store j y = .ok a2 ∧
      v.store j y = .ok b1 ∧ b1.store i x = .ok a2 := by
  have hbi := byte_in_buffer v hv i h0 hi
  have hbj := byte_in_buffer v hv j hj0 hj
  have hki : i.toNat % 8 < 8 := Nat.mod_lt _ (by decide)
  have hkj : j.toNat % 8 < 8 := Nat.mod_lt _ (by decide)
  obtain ⟨bi, hbi1, hsi⟩ := store_valid v hv i h0 hi x
  obtain ⟨hwi, hni⟩ := store_keeps_valid v _ hv i h0 hi x hsi
  obtain ⟨bij, hbij, hsij⟩ := store_valid _ hwi j hj0 (by rw [hni]; exact hj) y
  obtain ⟨bj, hbj1, hsj⟩ := store_valid v hv j hj0 hj y
  obtain ⟨hwj, hnj⟩ := store_keeps_valid v _ hv j hj0 hj y hsj
  obtain ⟨bji, hbji, hsji⟩ := store_valid _ hwj i h0 (by rw [hnj]; exact hi) x
  refine ⟨_, _, _, hsi, hsij, hsj, ?_⟩
  rw [hsji]
  by_cases hp : i.toNat / 8 = j.toNat / 8
  · have hne : i.toNat % 8 ≠ j.toNat % 8 := by omega
    rw [← hp] at hbij hbj1 hbji hbj
    rw [hbi1] at hbj1
    injection hbj1 with hbj1
    simp only [List.getElem?_set_self hbi, Option.some.injEq] at hbij hbji
    rw [← hp, ← hbij, ← hbji, ← hbj1]
    simp only [List.set_set, put_put_comm bi _ _ hki hkj hne x y]
  · simp only [List.getElem?_set_ne hp] at hbij
    simp only [List.getElem?_set_ne (fun e => hp e.symm)] at hbji
    rw [hbj1] at hbij
    rw [hbi1] at hbji
    injection hbij with hbij
    injection hbji with hbji
    rw [← hbij, ← hbji]
    simp only [List.set_comm _ _ _ hp]


/-- Claim C17: a bit write changes at most one bit of the whole buffer. For every
`vector<bool>` with the buffer of its constructor, whatever it holds, every index `i` with
`0 <= i < size()` and every boolean `x`, the statement `b[i] = x` returns; the element
count and the buffer length are unchanged; every byte other than byte `i / 8` is unchanged;
byte `i / 8` becomes `byte | mask` for `x == true` and `byte & ~mask` truncated to 8 bits
otherwise, with `mask = 1 << (i % 8)`; in it bit `i % 8` is `x` and every other bit is
unchanged, the padding bits past the element count included. -/
theorem C17_write_changes_one_bit (v : vector_bool) (hv : v.valid) (i : Int) (h0 : 0 ≤ i)
    (hi : i < v.size) (x : Bool) :
    ∃ (w : vector_bool) (before after : uint8_t), v.store i x = .ok w ∧
      w.size = v.size ∧ w.data.length = v.data.length ∧
      (∀ p : Nat, p ≠ (i / 8).toNat → w.data[p]? = v.data[p]?) ∧
      v.data[(i / 8).toNat]? = some before ∧ w.data[(i / 8).toNat]? = some after ∧
      after = (if x = true then to_uint8 (before.val ||| 2 ^ (i % 8).toNat)
        else to_uint8 (before.val &&& int_complement (2 ^ (i % 8).toNat))) ∧
      (x = true → after.val = before.val ||| 2 ^ (i % 8).toNat) ∧
      (∀ j : Nat, j ≠ (i % 8).toNat → after.val.testBit j = before.val.testBit j) ∧
      after.val.testBit (i % 8).toNat = x := by
  have e1 : (i / 8).toNat = i.toNat / 8 := by omega
  have e2 : (i % 8).toNat = i.toNat % 8 := by omega
  have hb := byte_in_buffer v hv i h0 hi
  have hk : i.toNat % 8 < 8 := Nat.mod_lt _ (by decide)
  obtain ⟨byte, hbyte, hs⟩ := store_valid v hv i h0 hi x
  rw [e1, e2]
  refine ⟨_, byte, _, hs, rfl, List.length_set _ _ _, ?_, hbyte,
    List.getElem?_set_self hb, rfl, ?_, ?_, ?_⟩
  · intro p hp
    exact List.getElem?_set_ne (fun e => hp e.symm)
  · intro hx
    subst hx
    simp only [if_true]
    apply Nat.eq_of_testBit_eq
    intro j
    rw [testBit_to_uint8]
    by_cases hj : j < 8
    · simp [hj]
    · have h1 := testBit_uint8_high byte j (by omega)
      have h2 : (2 ^ (i.toNat % 8)).testBit j = false := by
        rw [Nat.testBit_two_pow]
        simp only [decide_eq_false_iff_not]
        omega
      simp [hj, h1, h2]
  · intro j hj
    rw [testBit_after_put_all byte _ j hk x, if_neg (fun e => hj e.symm)]
  · rw [testBit_after_put_all byte _ _ hk x, if_pos rfl]

theorem C17_write_changes_one_bit_witness :
    ((vector_bool.mk 13 [170, 255]).valid ∧ (0 : Int) ≤ 12 ∧
      (12 : Int) < (vector_bool.mk 13 [170, 255]).size) ∧
    ∃ (w : vector_bool) (before after : uint8_t),
      (vector_bool.mk 13 [170, 255]).store 12 false = .ok w ∧
      w.size = (vector_bool.mk 13 [170, 255]).size ∧
      w.data.length = (vector_bool.mk 13 [170, 255]).data.length ∧
      (∀ p : Nat, p ≠ ((12 : Int) / 8).toNat →
        w.data[p]? = (vector_bool.mk 13 [170, 255]).data[p]?) ∧
      (vector_bool.mk 13 [170, 255]).data[((12 : Int) / 8).toNat]? = some before ∧
      w.data[((12 : Int) / 8).toNat]? = some after ∧
      after = (if false = true then to_uint8 (before.val ||| 2 ^ ((12 : Int) % 8).toNat)
        else to_uint8 (before.val &&& int_complement (2 ^ ((12 : Int) % 8).toNat))) ∧
      (false = true → after.val = before.val ||| 2 ^ ((12 : Int) % 8).toNat) ∧
      (∀ j : Nat, j ≠ ((12 : Int) % 8).toNat →
        after.val.testBit j = before.val.testBit j) ∧
      after.val.testBit ((12 : Int) % 8).toNat = false :=
  ⟨⟨by decide, by decide, by decide⟩,
    C17_write_changes_one_bit (vector_bool.mk 13 [170, 255]) (by decide) 12 (by decide)
      (by decide) false⟩

/-- Claim C18: last write wins and writes are idempotent. For every `vector<bool>` with
the buffer of its constructor, whatever it holds, every index `i` with `0 <= i < size()`
and all booleans `x` and `y`, the statements `b[i] = x; b[i] = y;` return and leave
exactly the container (size and every byte of the buffer) that `b[i] = y;` alone leaves;
with `y = x`: assigning a value twice leaves what assigning it once leaves. -/
theorem C18_last_write_wins (v : vector_bool) (hv : v.valid) (i : Int) (h0 : 0 ≤ i)
    (hi : i < v.size) (x y : Bool) :
    (∃ w1 w2, v.store i x = .ok w1 ∧ w1.store i y = .ok w2 ∧ v.store i y = .ok w2) ∧
    (∃ w1, v.store i x = .ok w1 ∧ w1.store i x = .ok w1) := by
  refine ⟨store_store_same v hv i h0 hi x y, ?_⟩
  obtain ⟨w1, w2, h1, h2, h3⟩ := store_store_same v hv i h0 hi x x
  rw [h1] at h3
  injection h3 with h3
  exact ⟨w1, h1, by rw [h2, h3]⟩

theorem C18_last_write_wins_witness :
    ((vector_bool.mk 13 [170, 255]).valid ∧ (0 : Int) ≤ 12 ∧
      (12 : Int) < (vector_bool.mk 13 [170, 255]).size) ∧
    (∃ w1 w2, (vector_bool.mk 13 [170, 255]).store 12 true = .ok w1 ∧
      w1.store 12 false = .ok w2 ∧ (vector_bool.mk 13 [170, 255]).store 12 false = .ok w2) ∧
    (∃ w1, (vector_bool.mk 13 [170, 255]).store 12 true = .ok w1 ∧
      w1.store 12 true = .ok w1) :=
  ⟨⟨by decide, by decide, by decide⟩,
    C18_last_write_wins (vector_bool.mk 13 [170, 255]) (by decide) 12 (by decide)
      (by decide) true false⟩

/-- Claim C19: writes to distinct indices commute. For every `vector<bool>` with the
buffer of its constructor, whatever it holds, all indices `i != j` with
`0 <= i, j < size()` (in the same byte or in different bytes) and all booleans `x` and
`y`, the statements `b[i] = x; b[j] = y;` and the statements `b[j] = y; b[i] = x;` return
and leave exactly the same container (size and every byte of the buffer). -/
theorem C19_writes_commute (v : vector_bool) (hv : v.valid) (i j : Int) (h0 : 0 ≤ i)
    (hi : i < v.size) (hj0 : 0 ≤ j) (hj : j < v.size) (hij : i ≠ j) (x y : Bool) :
    ∃ a1 a2 b1, v.store i x = .ok a1 ∧ a1.store j y = .ok a2 ∧
      v.store j y = .ok b1 ∧ b1.store i x = .ok a2 :=
  store_store_comm v hv i j h0 hi hj0 hj hij x y

theorem C19_writes_commute_witness :
    ((vector_bool.mk 13 [170, 255]).valid ∧ (0 : Int) ≤ 9 ∧
      (9 : Int) < (vector_bool.mk 13 [170, 255]).size ∧ (0 : Int) ≤ 12 ∧
      (12 : Int) < (vector_bool.mk 13 [170, 255]).size ∧ (9 : Int) ≠ 12) ∧
    ∃ a1 a2 b1, (vector_bool.mk 13 [170, 255]).store 9 false = .ok a1 ∧
      a1.store 12 true = .ok a2 ∧
      (vector_bool.mk 13 [170, 255]).store 12 true = .ok b1 ∧ b1.store 9 false = .ok a2 :=
  ⟨⟨by decide, by decide, by decide, by decide, by decide, by decide⟩,
    C19_writes_commute (vector_bool.mk 13 [170, 255]) (by decide) 9 12 (by decide)
      (by decide) (by decide) (by decide) (by decide) false true⟩

end VectorTemplate
